import Mathlib

/-!
Verification of the CodePulse core analysis engines
(`src/core/deep_analysis.py`, `src/core/clone_detection.py`,
`src/core/advanced_metrics.py`) against their specification.

The Python AST is embedded as the inductive type `Ast` below.  Python's
`ast.iter_child_nodes` yields every child field that is itself an AST node,
including expression contexts (`Load`/`Store`) and operator nodes (`Add`,
`And`, ...); the embedding therefore represents those as `Ast` constructors
so that generic walks visit them exactly as CPython does.  `ast.walk` is a
breadth-first traversal (a deque seeded with the root, extended with
`iter_child_nodes`); it is embedded as `walkBFS`.

MD5 hashing of a window (`_hash_code_block`) is modelled by the joined
window text itself: the join is exactly the hashed content, and hash
collisions are abstracted away.  Python floats are modelled by exact
rationals (`ℚ`).
-/

namespace CodePulse

/-- Embedding of the Python AST nodes used by the analyzers.  `Load`,
`Store` and `OpNode` stand for the context and operator objects that
`ast.iter_child_nodes` also yields (e.g. `ast.Load()`, `ast.Add()`). -/
inductive Ast where
  | Module (body : List Ast)
  | FunctionDef (name : String) (line : Nat) (args : Ast) (body : List Ast)
  | Arguments (args : List Ast)
  | Arg (name : String) (line : Nat)
  | If (line : Nat) (test : Ast) (body : List Ast) (orelse : List Ast)
  | While (line : Nat) (test : Ast) (body : List Ast)
  | For (line : Nat) (target : Ast) (iter : Ast) (body : List Ast)
  | Try (line : Nat) (body : List Ast) (handlers : List Ast)
  | ExceptHandler (line : Nat) (body : List Ast)
  | Assign (line : Nat) (targets : List Ast) (value : Ast)
  | Return (line : Nat) (value : Option Ast)
  | ExprStmt (line : Nat) (value : Ast)
  | Pass (line : Nat)
  | Break (line : Nat)
  | Name (line : Nat) (ident : String) (ctx : Ast)
  | Call (line : Nat) (func : Ast) (args : List Ast)
  | BinOp (line : Nat) (op : Ast) (left : Ast) (right : Ast)
  | BoolOp (line : Nat) (op : Ast) (values : List Ast)
  | Constant (line : Nat) (val : String)
  | Load
  | Store
  | OpNode (opName : String)

/-- `type(node).__name__` for each embedded node. -/
def Ast.kind : Ast → String
  | .Module _ => "Module"
  | .FunctionDef _ _ _ _ => "FunctionDef"
  | .Arguments _ => "arguments"
  | .Arg _ _ => "arg"
  | .If _ _ _ _ => "If"
  | .While _ _ _ => "While"
  | .For _ _ _ _ => "For"
  | .Try _ _ _ => "Try"
  | .ExceptHandler _ _ => "ExceptHandler"
  | .Assign _ _ _ => "Assign"
  | .Return _ _ => "Return"
  | .ExprStmt _ _ => "Expr"
  | .Pass _ => "Pass"
  | .Break _ => "Break"
  | .Name _ _ _ => "Name"
  | .Call _ _ _ => "Call"
  | .BinOp _ _ _ _ => "BinOp"
  | .BoolOp _ _ _ => "BoolOp"
  | .Constant _ _ => "Constant"
  | .Load => "Load"
  | .Store => "Store"
  | .OpNode o => o

/-- `getattr(node, 'lineno', 0)`: nodes without a `lineno` attribute
(`Module`, `arguments`, contexts, operators) yield 0. -/
def Ast.lineno : Ast → Nat
  | .Module _ => 0
  | .FunctionDef _ l _ _ => l
  | .Arguments _ => 0
  | .Arg _ l => l
  | .If l _ _ _ => l
  | .While l _ _ => l
  | .For l _ _ _ => l
  | .Try l _ _ => l
  | .ExceptHandler l _ => l
  | .Assign l _ _ => l
  | .Return l _ => l
  | .ExprStmt l _ => l
  | .Pass l => l
  | .Break l => l
  | .Name l _ _ => l
  | .Call l _ _ => l
  | .BinOp l _ _ _ => l
  | .BoolOp l _ _ => l
  | .Constant l _ => l
  | .Load => 0
  | .Store => 0
  | .OpNode _ => 0

/-- `ast.iter_child_nodes`, following CPython field order
(e.g. `Assign: targets, value`, `BinOp: left, op, right`,
`BoolOp: op, values`, `Name: ctx`). -/
def Ast.children : Ast → List Ast
  | .Module b => b
  | .FunctionDef _ _ a b => a :: b
  | .Arguments a => a
  | .Arg _ _ => []
  | .If _ t b o => t :: (b ++ o)
  | .While _ t b => t :: b
  | .For _ tg it b => tg :: it :: b
  | .Try _ b h => b ++ h
  | .ExceptHandler _ b => b
  | .Assign _ ts v => ts ++ [v]
  | .Return _ (some v) => [v]
  | .Return _ none => []
  | .ExprStmt _ v => [v]
  | .Pass _ => []
  | .Break _ => []
  | .Name _ _ c => [c]
  | .Call _ f a => f :: a
  | .BinOp _ op l r => [l, op, r]
  | .BoolOp _ op vs => op :: vs
  | .Constant _ _ => []
  | .Load => []
  | .Store => []
  | .OpNode _ => []

mutual
/-- Number of AST nodes in a subtree (termination measure for walks). -/
def Ast.size : Ast → Nat
  | .Module b => 1 + sizeList b
  | .FunctionDef _ _ a b => 1 + a.size + sizeList b
  | .Arguments a => 1 + sizeList a
  | .Arg _ _ => 1
  | .If _ t b o => 1 + t.size + sizeList b + sizeList o
  | .While _ t b => 1 + t.size + sizeList b
  | .For _ tg it b => 1 + tg.size + it.size + sizeList b
  | .Try _ b h => 1 + sizeList b + sizeList h
  | .ExceptHandler _ b => 1 + sizeList b
  | .Assign _ ts v => 1 + sizeList ts + v.size
  | .Return _ (some v) => 1 + v.size
  | .Return _ none => 1
  | .ExprStmt _ v => 1 + v.size
  | .Pass _ => 1
  | .Break _ => 1
  | .Name _ _ c => 1 + c.size
  | .Call _ f a => 1 + f.size + sizeList a
  | .BinOp _ op l r => 1 + op.size + l.size + r.size
  | .BoolOp _ op vs => 1 + op.size + sizeList vs
  | .Constant _ _ => 1
  | .Load => 1
  | .Store => 1
  | .OpNode _ => 1

def sizeList : List Ast → Nat
  | [] => 0
  | a :: as => a.size + sizeList as
end

/-- `ast.walk`: breadth-first traversal via a work queue.  The recursion is
driven by explicit fuel, one unit per dequeued node; since every node of the
queue's forest is dequeued exactly once, `sizeList q` units always suffice
and the out-of-fuel branch is never reached from the wrapper below. -/
def walkF : Nat → List Ast → List Ast
  | 0, _ => []
  | _ + 1, [] => []
  | fuel + 1, a :: rest => a :: walkF fuel (rest ++ a.children)

def walkBFS (q : List Ast) : List Ast := walkF (sizeList q) q

/-- `ast.walk(node)`. -/
def Ast.walk (a : Ast) : List Ast := walkBFS [a]

/-! ## Control-flow graph builder (`DeepAnalysisEngine.build_control_flow_graph`) -/

/-- One CFG vertex: `self.cfg.add_node(current_id, type=..., line=...)`. -/
structure FlowNodeRec where
  id : Nat
  type : String
  line : Nat
deriving Repr, DecidableEq

/-- The mutable `(self.cfg, self.node_counter)` pair of the engine.  Nodes
and edges are kept in insertion order; `networkx.DiGraph` node/edge sets are
recovered by membership. -/
structure CfgState where
  nodes : List FlowNodeRec
  edges : List (Nat × Nat)
  counter : Nat
deriving Repr, DecidableEq

def CfgState.initial : CfgState := ⟨[], [], 0⟩

/-- The prelude of `visit_node`: allocate `current_id`, add the node, and
connect it to its parent when one is given. -/
def pushNode (kind : String) (line : Nat) (parent : Option Nat) (s : CfgState) : CfgState :=
  { nodes := s.nodes ++ [⟨s.counter, kind, line⟩]
    edges := match parent with
      | some p => s.edges ++ [(p, s.counter)]
      | none => s.edges
    counter := s.counter + 1 }

mutual
/-- `visit_node(node, parent_id)`: `If` visits both branches as children of
the condition node (the test expression is not visited); `While`/`For` visit
the body then add a back-edge from the last created node to the loop node
when the body produced at least one node; `Try` visits the protected body
and every handler body as children of the `try` node; every other node falls
through to the generic walk over `ast.iter_child_nodes`.  Fuel decreases by
one per call; the wrappers below supply `3 * size` units, which always
suffice (each call strictly decreases that measure). -/
def visitNodeF : Nat → Ast → Option Nat → CfgState → CfgState
  | 0, _, _, s => s
  | fuel + 1, .Module b, parent, s =>
      visitListF fuel b s.counter (pushNode "Module" 0 parent s)
  | fuel + 1, .FunctionDef _ l a b, parent, s =>
      visitListF fuel b s.counter
        (visitNodeF fuel a (some s.counter) (pushNode "FunctionDef" l parent s))
  | fuel + 1, .Arguments a, parent, s =>
      visitListF fuel a s.counter (pushNode "arguments" 0 parent s)
  | _ + 1, .Arg _ l, parent, s => pushNode "arg" l parent s
  | fuel + 1, .If l _ b o, parent, s =>
      visitListF fuel o s.counter (visitListF fuel b s.counter (pushNode "If" l parent s))
  | fuel + 1, .While l _ b, parent, s =>
      let cur := s.counter
      let s1 := pushNode "While" l parent s
      let loopBodyId := s1.counter
      let s2 := visitListF fuel b cur s1
      if loopBodyId < s2.counter then
        { s2 with edges := s2.edges ++ [(s2.counter - 1, cur)] }
      else s2
  | fuel + 1, .For l _ _ b, parent, s =>
      let cur := s.counter
      let s1 := pushNode "For" l parent s
      let loopBodyId := s1.counter
      let s2 := visitListF fuel b cur s1
      if loopBodyId < s2.counter then
        { s2 with edges := s2.edges ++ [(s2.counter - 1, cur)] }
      else s2
  | fuel + 1, .Try l b hs, parent, s =>
      visitHandlersF fuel hs s.counter (visitListF fuel b s.counter (pushNode "Try" l parent s))
  | fuel + 1, .ExceptHandler l b, parent, s =>
      visitListF fuel b s.counter (pushNode "ExceptHandler" l parent s)
  | fuel + 1, .Assign l ts v, parent, s =>
      visitNodeF fuel v (some s.counter) (visitListF fuel ts s.counter (pushNode "Assign" l parent s))
  | fuel + 1, .Return l (some v), parent, s =>
      visitNodeF fuel v (some s.counter) (pushNode "Return" l parent s)
  | _ + 1, .Return l none, parent, s => pushNode "Return" l parent s
  | fuel + 1, .ExprStmt l v, parent, s =>
      visitNodeF fuel v (some s.counter) (pushNode "Expr" l parent s)
  | _ + 1, .Pass l, parent, s => pushNode "Pass" l parent s
  | _ + 1, .Break l, parent, s => pushNode "Break" l parent s
  | fuel + 1, .Name l _ c, parent, s =>
      visitNodeF fuel c (some s.counter) (pushNode "Name" l parent s)
  | fuel + 1, .Call l f a, parent, s =>
      visitListF fuel a s.counter (visitNodeF fuel f (some s.counter) (pushNode "Call" l parent s))
  | fuel + 1, .BinOp l op lf rt, parent, s =>
      visitNodeF fuel rt (some s.counter)
        (visitNodeF fuel op (some s.counter)
          (visitNodeF fuel lf (some s.counter) (pushNode "BinOp" l parent s)))
  | fuel + 1, .BoolOp l op vs, parent, s =>
      visitListF fuel vs s.counter (visitNodeF fuel op (some s.counter) (pushNode "BoolOp" l parent s))
  | _ + 1, .Constant l _, parent, s => pushNode "Constant" l parent s
  | _ + 1, .Load, parent, s => pushNode "Load" 0 parent s
  | _ + 1, .Store, parent, s => pushNode "Store" 0 parent s
  | _ + 1, .OpNode o, parent, s => pushNode o 0 parent s

/-- `for stmt in stmts: visit_node(stmt, parent)`. -/
def visitListF : Nat → List Ast → Nat → CfgState → CfgState
  | 0, _, _, s => s
  | _ + 1, [], _, s => s
  | fuel + 1, a :: as, p, s => visitListF fuel as p (visitNodeF fuel a (some p) s)

/-- `for handler in node.handlers: for stmt in handler.body: visit_node(stmt, current_id)`.
A non-`ExceptHandler` entry has no `.body` and is skipped. -/
def visitHandlersF : Nat → List Ast → Nat → CfgState → CfgState
  | 0, _, _, s => s
  | _ + 1, [], _, s => s
  | fuel + 1, .ExceptHandler _ b :: rest, p, s =>
      visitHandlersF fuel rest p (visitListF fuel b p s)
  | fuel + 1, _ :: rest, p, s => visitHandlersF fuel rest p s
end

def visitNode (n : Ast) (parent : Option Nat) (s : CfgState) : CfgState :=
  visitNodeF (3 * n.size) n parent s

def visitList (l : List Ast) (p : Nat) (s : CfgState) : CfgState :=
  visitListF (3 * sizeList l + 1) l p s

/-- Top of `build_control_flow_graph`:
`for node in ast.iter_child_nodes(tree): visit_node(node)` (no parent). -/
def visitTop : List Ast → CfgState → CfgState
  | [], s => s
  | a :: as, s => visitTop as (visitNode a none s)

/-- `build_control_flow_graph(tree)` starting from a cleared graph. -/
def buildControlFlowGraph (tree : Ast) : CfgState :=
  visitTop tree.children .initial

/-! ## Control-flow analysis (`DeepAnalysisEngine._analyze_control_flow`) -/

def CfgState.ids (s : CfgState) : List Nat := s.nodes.map (·.id)

/-- `self.cfg.in_degree(n)` (the builder never inserts a duplicate edge). -/
def CfgState.inDegree (s : CfgState) (i : Nat) : Nat :=
  (s.edges.filter (fun e => e.2 = i)).length

/-- `[n for n in self.cfg.nodes() if self.cfg.in_degree(n) == 0]`. -/
def CfgState.rootIds (s : CfgState) : List Nat :=
  s.ids.filter (fun i => s.edges.all (fun e => decide (e.2 ≠ i)))

/-- `list(self.cfg.successors(node))`. -/
def CfgState.successors (s : CfgState) (i : Nat) : List Nat :=
  (s.edges.filter (fun e => e.1 = i)).map (·.2)

/-- Consecutive elements of the list are joined by edges. -/
def chainOk (edges : List (Nat × Nat)) : List Nat → Bool
  | a :: b :: rest => decide ((a, b) ∈ edges) && chainOk edges (b :: rest)
  | _ => true

/-- Canonical representative of an elementary cycle: a nonempty duplicate-free
node list starting at its minimum, consecutive nodes joined by edges, and an
edge closing the cycle from the last node back to the first. -/
def canonicalCycle (edges : List (Nat × Nat)) (c : List Nat) : Bool :=
  match c with
  | [] => false
  | h :: t =>
      decide ((h :: t).Nodup) && (h :: t).all (fun x => decide (h ≤ x))
        && chainOk edges (h :: t)
        && decide (((h :: t).getLast (by simp), h) ∈ edges)

/-- All subsequences of a list. -/
def subseqsOf : List Nat → List (List Nat)
  | [] => [[]]
  | a :: as => subseqsOf as ++ (subseqsOf as).map (a :: ·)

/-- All ways to insert an element into a list. -/
def insertionsOf (a : Nat) : List Nat → List (List Nat)
  | [] => [[a]]
  | b :: bs => (a :: b :: bs) :: (insertionsOf a bs).map (b :: ·)

/-- All permutations of a list. -/
def permsOf : List Nat → List (List Nat)
  | [] => [[]]
  | a :: as => (permsOf as).flatMap (insertionsOf a)

/-- The set of elementary cycles of the CFG, one canonical representative
each — the contents of `list(nx.simple_cycles(self.cfg))` (networkx's
enumeration order and rotation of each cycle differ, its cycle set does not). -/
def elementaryCycles (s : CfgState) : List (List Nat) :=
  ((subseqsOf s.ids).flatMap permsOf).filter (canonicalCycle s.edges)

/-- `any(s not in cycle for s in successors(node)) for node in cycle`. -/
def hasExit (s : CfgState) (cycle : List Nat) : Bool :=
  cycle.any (fun n => (s.successors n).any (fun m => decide (m ∉ cycle)))

/-- An analyzer finding. -/
structure Issue where
  type : String
  severity : String
  message : String
deriving Repr, DecidableEq

/-- The infinite-loop portion of `_analyze_control_flow`: for every cycle
with no exit, append an error-severity issue. -/
def infiniteLoopIssues (s : CfgState) : List Issue :=
  (elementaryCycles s).filterMap (fun c =>
    if hasExit s c then none
    else some ⟨"potential_infinite_loop", "error", "Detected potential infinite loop"⟩)

/-! ## Data-flow graph builder (`DeepAnalysisEngine.build_data_flow_graph`) -/

/-- `defaultdict(list)` keyed by variable name, in key-insertion order. -/
abbrev MultiMap := List (String × List Nat)

/-- `m[x].append(l)` on a `defaultdict(list)`. -/
def MultiMap.push (m : MultiMap) (x : String) (l : Nat) : MultiMap :=
  if m.any (fun p => p.1 = x) then
    m.map (fun p => if p.1 = x then (p.1, p.2 ++ [l]) else p)
  else m ++ [(x, [l])]

/-- `m[x]` (empty when the key is absent). -/
def MultiMap.get (m : MultiMap) (x : String) : List Nat :=
  match m.find? (fun p => p.1 = x) with
  | some p => p.2
  | none => []

def MultiMap.keys (m : MultiMap) : List String := m.map (·.1)

/-- The visitor's two accumulators: `definitions` and `uses`. -/
structure DFState where
  defs : MultiMap
  uses : MultiMap

def DFState.initial : DFState := ⟨[], []⟩

/-- `isinstance(node, ast.Name)` pattern used in `visit_Assign`'s walk. -/
def recordAnyName (l : Nat) (st : DFState) (c : Ast) : DFState :=
  match c with
  | .Name _ x _ => { st with uses := st.uses.push x l }
  | _ => st

mutual
/-- `DataFlowVisitor.visit`: `Assign` records each `Name` target as a
definition at the assignment's line, records every `Name` anywhere in the
value (via `ast.walk`) as a use at the assignment's line, then calls
`generic_visit`; a `Name` in `Load` context records a use at its own line
then calls `generic_visit`; everything else is `generic_visit`.  Fuel as in
`visitNodeF`: the wrapper's `3 * size` units always suffice. -/
def dfVisitF : Nat → Ast → DFState → DFState
  | 0, _, st => st
  | fuel + 1, .Assign l ts v, st =>
      let st1 := ts.foldl (fun acc t =>
        match t with
        | .Name _ x _ => { acc with defs := acc.defs.push x l }
        | _ => acc) st
      let st2 := (walkBFS [v]).foldl (recordAnyName l) st1
      dfGenericF fuel (.Assign l ts v) st2
  | fuel + 1, .Name l x c, st =>
      let st1 := match c with
        | .Load => { st with uses := st.uses.push x l }
        | _ => st
      dfGenericF fuel (.Name l x c) st1
  | fuel + 1, n, st => dfGenericF fuel n st

/-- `NodeVisitor.generic_visit`: visit every child node in field order. -/
def dfGenericF : Nat → Ast → DFState → DFState
  | 0, _, st => st
  | fuel + 1, n, st => dfListF fuel n.children st

def dfListF : Nat → List Ast → DFState → DFState
  | 0, _, st => st
  | _ + 1, [], st => st
  | fuel + 1, a :: as, st => dfListF fuel as (dfVisitF fuel a st)
end

def dfVisit (n : Ast) (st : DFState) : DFState := dfVisitF (3 * n.size) n st

/-- `build_data_flow_graph`: run the visitor over the whole tree. -/
def dataFlowState (tree : Ast) : DFState := dfVisit tree .initial

/-- Helper: render `f"{var}@{line}"`. -/
def atNode (x : String) (l : Nat) : String := x ++ "@" ++ toString l

/-- The node set of `self.dfg` after `build_data_flow_graph`: one node per
key of `definitions`/`uses`, plus the `f"{var}@{line}"` endpoint nodes that
`add_edge` creates implicitly for every definition/use pair with
`use_line > def_line`. -/
def dfgNodes (tree : Ast) : List String :=
  let st := dataFlowState tree
  let varNames := st.defs.keys ++ st.uses.keys
  let endpoints := st.defs.flatMap (fun p =>
    p.2.flatMap (fun d =>
      (st.uses.get p.1).flatMap (fun u =>
        if d < u then [atNode p.1 d, atNode p.1 u] else [])))
  (varNames ++ endpoints).dedup

/-- `total_variables` as reported by `_analyze_data_flow`:
`self.dfg.number_of_nodes()`. -/
def dataFlowTotalVariables (tree : Ast) : Nat := (dfgNodes tree).length

/-- The number of distinct variable names observed as a definition or use. -/
def distinctVariableCount (tree : Ast) : Nat :=
  let st := dataFlowState tree
  (st.defs.keys ++ st.uses.keys).dedup.length

/-! ## Call graph builder (`DeepAnalysisEngine.build_call_graph`) -/

/-- Python `dict` insert: overwrite in place or append a new key. -/
def upsertFn (m : List (String × Ast)) (k : String) (v : Ast) : List (String × Ast) :=
  if m.any (fun p => p.1 = k) then
    m.map (fun p => if p.1 = k then (p.1, v) else p)
  else m ++ [(k, v)]

/-- `functions = {}`: index every `FunctionDef` met on `ast.walk(tree)`. -/
def indexFunctions (tree : Ast) : List (String × Ast) :=
  (walkBFS [tree]).foldl (fun m n =>
    match n with
    | .FunctionDef nm l a b => upsertFn m nm (.FunctionDef nm l a b)
    | _ => m) []

/-- `DiGraph.add_edge`: duplicate edges are not stored twice. -/
def insertEdge (es : List (String × String)) (e : String × String) : List (String × String) :=
  if e ∈ es then es else es ++ [e]

/-- One step of the call-search loop: a direct call `name(...)` whose
callee name is indexed adds an edge from the enclosing function (there is
no guard against `called == func_name`). -/
def cgStep (functions : List (String × Ast)) (fname : String)
    (es : List (String × String)) : Ast → List (String × String)
  | .Call _ (.Name _ called _) _ =>
      if functions.any (fun q => q.1 = called) then insertEdge es (fname, called) else es
  | _ => es

/-- `build_call_graph`: nodes are the indexed function names; for each
indexed function, walk its subtree recording edges via `cgStep`. -/
def buildCallGraph (tree : Ast) : List String × List (String × String) :=
  let functions := indexFunctions tree
  let edges := functions.foldl (fun es p => (walkBFS [p.2]).foldl (cgStep functions p.1) es) []
  (functions.map (·.1), edges)

/-! ## Clone detection (`clone_detection.py`) -/

structure CodeClone where
  type : String
  file1 : String
  file2 : String
  lines1 : Nat × Nat
  lines2 : Nat × Nat
  similarity : ℚ
  size : Nat
  severity : String
deriving Repr, DecidableEq

/-- Python `str.strip()`: drop leading and trailing whitespace. -/
def pyStrip (s : String) : String :=
  ⟨((s.data.dropWhile Char.isWhitespace).reverse.dropWhile Char.isWhitespace).reverse⟩

/-- Python `str.startswith('#')`. -/
def startsWithHash (s : String) : Bool :=
  match s.data with
  | c :: _ => c = '#'
  | [] => false

/-- Line normalization of `_detect_type1_clones`: strip each line, keep
the non-empty ones that do not start with `#`. -/
def normalizeLines (lines : List String) : List String :=
  (lines.map pyStrip).filter (fun s => s ≠ "" && !startsWithHash s)

/-- `i < j` index pairs in Python's
`for j in range(len(xs)): for k in range(j+1, len(xs))` order. -/
def upperPairs {α : Type} : List α → List (α × α)
  | [] => []
  | x :: xs => xs.map (fun y => (x, y)) ++ upperPairs xs

/-- `window_hashes`: group window start positions by window content
(`_hash_code_block` md5 modelled by the joined text itself), keys in
first-appearance order. -/
def windowGroups (normalized : List String) (minLines : Nat) : MultiMap :=
  (List.range (normalized.length + 1 - minLines)).foldl (fun m i =>
    m.push (String.join ((normalized.drop i).take minLines)) i) []

/-- `_detect_type1_clones`: one `CodeClone` per pair of positions sharing a
window hash; note the hard-coded `similarity=100.0`, `size=self.min_lines`
and `severity='HIGH'`. -/
def detectType1Clones (lines : List String) (filePath : String) (minLines : Nat := 6) :
    List CodeClone :=
  let normalized := normalizeLines lines
  (windowGroups normalized minLines).foldl (fun cs p =>
    if p.2.length > 1 then
      cs ++ (upperPairs p.2).map (fun q =>
        ⟨"Type 1", filePath, filePath, (q.1 + 1, q.1 + minLines), (q.2 + 1, q.2 + minLines),
          100, minLines, "HIGH"⟩)
    else cs) []

/-- `_get_ast_fingerprint`: the tokens appended for one walked node —
its type name, then `LOOP` for `For`/`While`, `COND` for `If`, and the
operator class name for `BinOp`. -/
def fingerTokens (n : Ast) : String :=
  n.kind ++
    (match n with
     | .For _ _ _ _ => "LOOP"
     | .While _ _ _ => "LOOP"
     | .If _ _ _ _ => "COND"
     | .BinOp _ op _ _ => op.kind
     | _ => "")

/-- `_get_ast_fingerprint(node)`: concatenation over `ast.walk(node)`. -/
def getAstFingerprint (n : Ast) : String :=
  String.join ((walkBFS [n]).map fingerTokens)

/-- `isinstance(node, ast.FunctionDef)` filter over `ast.walk(tree)`. -/
def functionsOf (tree : Ast) : List Ast :=
  (walkBFS [tree]).filter (fun n =>
    match n with
    | .FunctionDef _ _ _ _ => true
    | _ => false)

/-- `_detect_type2_clones`, parametrized by the host `difflib`
`SequenceMatcher.ratio` on fingerprint strings (an external library the
core only calls). -/
def detectType2Clones (ratio : String → String → ℚ) (tree : Ast) (filePath : String) :
    List CodeClone :=
  (upperPairs (functionsOf tree)).filterMap (fun p =>
    let f1 := getAstFingerprint p.1
    let f2 := getAstFingerprint p.2
    let sim : ℚ := if f1 = "" ∨ f2 = "" then 0 else ratio f1 f2
    if sim > 4/5 then
      some ⟨"Type 2", filePath, filePath, (p.1.lineno, p.1.lineno), (p.2.lineno, p.2.lineno),
        sim * 100, 1, "MEDIUM"⟩
    else none)

/-- Result of `ast.parse(code)`: a tree, or a raised `SyntaxError`. -/
inductive ParseResult where
  | ok (tree : Ast)
  | syntaxError

/-- `CloneDetector.detect_clones_in_file`: Type-1 detection runs on the raw
lines; Type-2 detection runs only when `ast.parse` succeeds, its failure
being swallowed by `try/except`. -/
def detectClonesInFile (ratio : String → String → ℚ) (lines : List String)
    (p : ParseResult) (filePath : String) : List CodeClone :=
  let cs := detectType1Clones lines filePath 6
  match p with
  | .ok tree => cs ++ detectType2Clones ratio tree filePath
  | .syntaxError => cs

/-! ## Semantic clone detector (`SemanticCloneDetector`) -/

structure Behavior where
  operations : List String
  returnsType : Option String
  callsFunctions : List String
  usesLoops : Bool
  usesConditions : Bool
deriving Repr, DecidableEq

def Behavior.initial : Behavior := ⟨[], none, [], false, false⟩

/-- `_analyze_function_behavior`: one pass over `ast.walk(func)`. -/
def analyzeFunctionBehavior (f : Ast) : Behavior :=
  (walkBFS [f]).foldl (fun b n =>
    let b := match n with
      | .BinOp _ op _ _ => { b with operations := b.operations ++ [op.kind] }
      | _ => b
    let b := match n with
      | .Return _ (some v) => { b with returnsType := some v.kind }
      | _ => b
    let b := match n with
      | .Call _ (.Name _ x _) _ => { b with callsFunctions := b.callsFunctions ++ [x] }
      | _ => b
    let b := match n with
      | .For _ _ _ _ => { b with usesLoops := true }
      | .While _ _ _ => { b with usesLoops := true }
      | _ => b
    match n with
    | .If _ _ _ _ => { b with usesConditions := true }
    | _ => b) .initial

/-- `set(b1) & set(b2)` non-empty. -/
def callsIntersect (b1 b2 : Behavior) : Bool :=
  b1.callsFunctions.any (fun x => b2.callsFunctions.contains x)

/-- `_compare_behaviors`: weighted indicator sum divided by the accumulated
factor total (floats modelled by exact rationals). -/
def compareBehaviors (b1 b2 : Behavior) : ℚ :=
  let score : ℚ :=
    (if b1.operations = b2.operations then 3/10 else 0)
    + (if b1.returnsType = b2.returnsType then 2/10 else 0)
    + (if callsIntersect b1 b2 then 25/100 else 0)
    + (if b1.usesLoops = b2.usesLoops then 125/1000 else 0)
    + (if b1.usesConditions = b2.usesConditions then 125/1000 else 0)
  let factors : ℚ := 3/10 + 2/10 + 25/100 + 125/1000 + 125/1000
  if factors > 0 then score / factors else 0

structure SemanticClone where
  function1 : String
  function2 : String
  line1 : Nat
  line2 : Nat
  similarity : ℚ
deriving Repr, DecidableEq

/-- The name of a function node (`node.name`). -/
def fnName : Ast → String
  | .FunctionDef nm _ _ _ => nm
  | _ => ""

/-- `detect_semantic_clones`: extract every function with its behavior,
then compare each pair `(i, j)`, `i < j`, keeping similarity `> 0.70`. -/
def detectSemanticClones (tree : Ast) : List SemanticClone :=
  let fns := functionsOf tree
  (upperPairs fns).filterMap (fun p =>
    let similarity := compareBehaviors (analyzeFunctionBehavior p.1) (analyzeFunctionBehavior p.2)
    if similarity > 7/10 then
      some ⟨fnName p.1, fnName p.2, p.1.lineno, p.2.lineno, similarity * 100⟩
    else none)

/-! ## Metrics calculator (`advanced_metrics.py`) -/

mutual
/-- `_calculate_cognitive_complexity.visit_node`: `If`/`While`/`For`
contribute `1 + depth` and deepen the nesting for all their children;
`BoolOp` contributes `len(values) - 1`; a call with a bare-`Name` callee
contributes 1; children are `ast.iter_child_nodes`.  Fueled as above
(`2 * size` units always suffice). -/
def cogVisitF : Nat → Ast → Nat → Nat
  | 0, _, _ => 0
  | fuel + 1, n, depth =>
      let inc := match n with
        | .If _ _ _ _ => 1 + depth
        | .While _ _ _ => 1 + depth
        | .For _ _ _ _ => 1 + depth
        | _ => 0
      let depthA := match n with
        | .If _ _ _ _ => depth + 1
        | .While _ _ _ => depth + 1
        | .For _ _ _ _ => depth + 1
        | _ => depth
      let boolTerm := match n with
        | .BoolOp _ _ vs => vs.length - 1
        | _ => 0
      let callTerm := match n with
        | .Call _ (.Name _ _ _) _ => 1
        | _ => 0
      inc + boolTerm + callTerm + cogListF fuel n.children depthA

def cogListF : Nat → List Ast → Nat → Nat
  | 0, _, _ => 0
  | _ + 1, [], _ => 0
  | fuel + 1, a :: as, d => cogVisitF fuel a d + cogListF fuel as d
end

def cogVisit (n : Ast) (depth : Nat) : Nat := cogVisitF (2 * n.size) n depth

/-- `_calculate_cognitive_complexity(tree)`. -/
def cognitiveComplexity (tree : Ast) : Nat := cogVisit tree 0

/-- `_calculate_cyclomatic_complexity`: 1 + one per decision-point node
(`If`, `While`, `For`, `ExceptHandler`, `BoolOp` among the embedded kinds),
plus one per `elif` chain (`If` whose `orelse` starts with an `If`). -/
def cyclomaticComplexity (tree : Ast) : Nat :=
  (walkBFS [tree]).foldl (fun c n =>
    let c := match n with
      | .If _ _ _ _ => c + 1
      | .While _ _ _ => c + 1
      | .For _ _ _ _ => c + 1
      | .ExceptHandler _ _ => c + 1
      | .BoolOp _ _ _ => c + 1
      | _ => c
    match n with
    | .If _ _ _ (.If _ _ _ _ :: _) => c + 1
    | _ => c) 1

/-! ## Entry-point error behavior (§7 of the spec) -/

/-- The analysis bundle assembled by `DeepAnalysisEngine.analyze_file`
(the portions of the result modelled here). -/
structure DeepResults where
  flowIssues : List Issue
  totalNodes : Nat
  totalEdges : Nat
  totalVariables : Nat
  totalFunctions : Nat
  functionCalls : Nat
deriving Repr, DecidableEq

/-- `DeepAnalysisEngine.analyze_file`: `ast.parse` is NOT wrapped in
`try/except`, so a failing parse raises out of the method. -/
def deepAnalyzeFile (p : ParseResult) : Except String DeepResults :=
  match p with
  | .syntaxError => .error "SyntaxError"
  | .ok tree =>
      let cfg := buildControlFlowGraph tree
      let cg := buildCallGraph tree
      .ok ⟨infiniteLoopIssues cfg, cfg.nodes.length, cfg.edges.length,
        dataFlowTotalVariables tree, cg.1.length, cg.2.length⟩

/-- `AdvancedMetricsCalculator.analyze_python_file`: the whole body is
wrapped in `try/except Exception`, which returns `{'error': str(e)}` on a
failing parse instead of raising. -/
inductive MetricsOutcome where
  | errorResult (msg : String)
  | metrics (cyclomatic cognitive : Nat)
deriving Repr, DecidableEq

def analyzePythonFile (p : ParseResult) : MetricsOutcome :=
  match p with
  | .syntaxError => .errorResult "SyntaxError"
  | .ok tree => .metrics (cyclomaticComplexity tree) (cognitiveComplexity tree)

/-! ## Auxiliary predicates and spec-side definitions -/

/-- `isinstance(node, (ast.While, ast.For))`. -/
def isLoopStmt : Ast → Bool
  | .While _ _ _ => true
  | .For _ _ _ _ => true
  | _ => false

/-- Builder invariant: node ids are exactly `0, ..., counter-1` in creation
order, and every recorded edge joins already-created ids. -/
def CfgInv (s : CfgState) : Prop :=
  s.ids = List.range s.counter ∧ ∀ e ∈ s.edges, e.1 < s.counter ∧ e.2 < s.counter

/-- A builder run extends a state: the invariant holds afterwards, the
counter does not decrease, and every new edge points at a node allocated at
or after the old counter. -/
def CfgExtends (s s2 : CfgState) : Prop :=
  CfgInv s2 ∧ s.counter ≤ s2.counter
    ∧ ∀ e ∈ s2.edges, e ∈ s.edges ∨ s.counter ≤ e.2

/-- Classification of the edges present after `visit_node(n, parent)` runs
on state `s`: an old edge, the parent edge into the fresh node, a back-edge
into the fresh node when `n` is a loop, or an edge into a node allocated
strictly later. -/
def NewEdgeOK (n : Ast) (parent : Option Nat) (s : CfgState) (e : Nat × Nat) : Prop :=
  e ∈ s.edges ∨ (∃ p, parent = some p ∧ e = (p, s.counter))
    ∨ (isLoopStmt n = true ∧ e.2 = s.counter) ∨ s.counter + 1 ≤ e.2

mutual
/-- Rename every identifier (via `σ`) and every literal (via `τ`) in a tree,
leaving the node-kind structure unchanged. -/
def renameAst (σ τ : String → String) : Ast → Ast
  | .Module b => .Module (renameList σ τ b)
  | .FunctionDef nm l a b => .FunctionDef (σ nm) l (renameAst σ τ a) (renameList σ τ b)
  | .Arguments a => .Arguments (renameList σ τ a)
  | .Arg nm l => .Arg (σ nm) l
  | .If l t b o => .If l (renameAst σ τ t) (renameList σ τ b) (renameList σ τ o)
  | .While l t b => .While l (renameAst σ τ t) (renameList σ τ b)
  | .For l tg it b => .For l (renameAst σ τ tg) (renameAst σ τ it) (renameList σ τ b)
  | .Try l b h => .Try l (renameList σ τ b) (renameList σ τ h)
  | .ExceptHandler l b => .ExceptHandler l (renameList σ τ b)
  | .Assign l ts v => .Assign l (renameList σ τ ts) (renameAst σ τ v)
  | .Return l (some v) => .Return l (some (renameAst σ τ v))
  | .Return l none => .Return l none
  | .ExprStmt l v => .ExprStmt l (renameAst σ τ v)
  | .Pass l => .Pass l
  | .Break l => .Break l
  | .Name l x c => .Name l (σ x) (renameAst σ τ c)
  | .Call l f a => .Call l (renameAst σ τ f) (renameList σ τ a)
  | .BinOp l op lf rt => .BinOp l (renameAst σ τ op) (renameAst σ τ lf) (renameAst σ τ rt)
  | .BoolOp l op vs => .BoolOp l (renameAst σ τ op) (renameList σ τ vs)
  | .Constant l v => .Constant l (τ v)
  | .Load => .Load
  | .Store => .Store
  | .OpNode o => .OpNode o

def renameList (σ τ : String → String) : List Ast → List Ast
  | [] => []
  | a :: as => renameAst σ τ a :: renameList σ τ as
end

/-- Number of `Name` nodes (any context) with identifier `x` in a subtree —
what `visit_Assign`'s `ast.walk(node.value)` loop records. -/
def countNamesAll (x : String) (m : Ast) : Nat :=
  ((walkBFS [m]).filter (fun n =>
    match n with
    | .Name _ y _ => y = x
    | _ => false)).length

mutual
/-- Source lines of `Load`-context `Name` nodes with identifier `x`, in the
preorder in which `generic_visit` reaches them (children in
`ast.iter_child_nodes` field order). -/
def loadLines (x : String) : Ast → List Nat
  | .Module b => loadLinesList x b
  | .FunctionDef _ _ a b => loadLines x a ++ loadLinesList x b
  | .Arguments a => loadLinesList x a
  | .Arg _ _ => []
  | .If _ t b o => loadLines x t ++ (loadLinesList x b ++ loadLinesList x o)
  | .While _ t b => loadLines x t ++ loadLinesList x b
  | .For _ tg it b => loadLines x tg ++ (loadLines x it ++ loadLinesList x b)
  | .Try _ b h => loadLinesList x b ++ loadLinesList x h
  | .ExceptHandler _ b => loadLinesList x b
  | .Assign _ ts v => loadLinesList x ts ++ loadLines x v
  | .Return _ (some v) => loadLines x v
  | .Return _ none => []
  | .ExprStmt _ v => loadLines x v
  | .Pass _ => []
  | .Break _ => []
  | .Name l y c =>
      (if y = x then
        match c with
        | .Load => [l]
        | _ => []
      else []) ++ loadLines x c
  | .Call _ f a => loadLines x f ++ loadLinesList x a
  | .BinOp _ op lf rt => loadLines x lf ++ (loadLines x op ++ loadLines x rt)
  | .BoolOp _ op vs => loadLines x op ++ loadLinesList x vs
  | .Constant _ _ => []
  | .Load => []
  | .Store => []
  | .OpNode _ => []

def loadLinesList (x : String) : List Ast → List Nat
  | [] => []
  | a :: as => loadLines x a ++ loadLinesList x as
end

mutual
/-- The subtree contains an `Assign` node (impossible inside a real Python
expression; used to restrict statements about expression subtrees). -/
def hasAssign : Ast → Bool
  | .Module b => hasAssignList b
  | .FunctionDef _ _ a b => hasAssign a || hasAssignList b
  | .Arguments a => hasAssignList a
  | .Arg _ _ => false
  | .If _ t b o => hasAssign t || (hasAssignList b || hasAssignList o)
  | .While _ t b => hasAssign t || hasAssignList b
  | .For _ tg it b => hasAssign tg || (hasAssign it || hasAssignList b)
  | .Try _ b h => hasAssignList b || hasAssignList h
  | .ExceptHandler _ b => hasAssignList b
  | .Assign _ _ _ => true
  | .Return _ (some v) => hasAssign v
  | .Return _ none => false
  | .ExprStmt _ v => hasAssign v
  | .Pass _ => false
  | .Break _ => false
  | .Name _ _ c => hasAssign c
  | .Call _ f a => hasAssign f || hasAssignList a
  | .BinOp _ op lf rt => hasAssign op || (hasAssign lf || hasAssign rt)
  | .BoolOp _ op vs => hasAssign op || hasAssignList vs
  | .Constant _ _ => false
  | .Load => false
  | .Store => false
  | .OpNode _ => false

def hasAssignList : List Ast → Bool
  | [] => false
  | a :: as => hasAssign a || hasAssignList as
end

/-- Spec-side score (§4.8): 0.30 for identical operator-kind sequences,
0.20 for matching return-expression kinds, 0.25 for intersecting callee
sets, 0.125 each for matching loop presence and conditional presence. -/
def specSemanticScore (b1 b2 : Behavior) : ℚ :=
  (if b1.operations = b2.operations then 30/100 else 0)
  + (if b1.returnsType = b2.returnsType then 20/100 else 0)
  + (if callsIntersect b1 b2 then 25/100 else 0)
  + (if b1.usesLoops = b2.usesLoops then 125/1000 else 0)
  + (if b1.usesConditions = b2.usesConditions then 125/1000 else 0)

/-! ## Concrete scenario inputs -/

/-- A `while True: pass` shaped module. -/
def whileTrueTree (l1 l2 : Nat) : Ast :=
  .Module [.While l1 (.Constant l1 "True") [.Pass l2]]

/-- A `while cond: pass; break` shaped module: the loop body has a
statement besides the final `break`. -/
def whileBreakTree (l1 l2 l3 : Nat) : Ast :=
  .Module [.While l1 (.Name l1 "cond" .Load) [.Pass l2, .Break l3]]

/-- Scenario A: a function whose body is `for: if: if: if: pass`,
with bare names for the loop target/iterable and the conditions. -/
def scenarioATree (fn tg it c1 c2 c3 : String) (l0 l1 l2 l3 l4 l5 : Nat) : Ast :=
  .Module [.FunctionDef fn l0 (.Arguments [])
    [.For l1 (.Name l1 tg .Store) (.Name l1 it .Load)
      [.If l2 (.Name l2 c1 .Load)
        [.If l3 (.Name l3 c2 .Load)
          [.If l4 (.Name l4 c3 .Load)
            [.Pass l5] []] []] []]]]

/-- Scenario B: two functions with byte-identical 8-line bodies pasted
twice in one file. -/
def scenarioBLines : List String :=
  ["def f1():",
   "    a = 1",
   "    b = 2",
   "    c = a + b",
   "    d = c * 2",
   "    e = d - a",
   "    f = e + b",
   "    g = f * c",
   "    return g",
   "def f2():",
   "    a = 1",
   "    b = 2",
   "    c = a + b",
   "    d = c * 2",
   "    e = d - a",
   "    f = e + b",
   "    g = f * c",
   "    return g"]

/-- `x = 1` then `y = x`. -/
def c9Tree : Ast :=
  .Module [.Assign 1 [.Name 1 "x" .Store] (.Constant 1 "1"),
           .Assign 2 [.Name 2 "y" .Store] (.Name 2 "x" .Load)]

/-- A single self-recursive function: `def f(): f()`. -/
def selfRecTree : Ast :=
  .Module [.FunctionDef "f" 1 (.Arguments [])
    [.ExprStmt 2 (.Call 2 (.Name 2 "f" .Load) [])]]

/-- The use-lines contributed by a node itself in `visit_Name`:
a `Load`-context `Name` with the given identifier yields its own line. -/
def nameUseLines (x : String) : Ast → List Nat
  | .Name l y c => if y = x then (match c with | .Load => [l] | _ => []) else []
  | _ => []

/-! # Helper lemmas -/

theorem sizeList_append (l1 l2 : List Ast) :
    sizeList (l1 ++ l2) = sizeList l1 + sizeList l2 := by
  induction l1 with
  | nil => simp [sizeList]
  | cons x xs ih => simp [sizeList, ih] <;> omega

theorem Ast.size_pos (n : Ast) : 0 < n.size := by
  cases n <;>
    first
      | (simp [Ast.size] <;> omega)
      | (rename_i v; cases v <;> simp [Ast.size] <;> omega)

theorem children_size_lt (n : Ast) : sizeList n.children < n.size := by
  cases n <;> try (simp [Ast.children, Ast.size, sizeList, sizeList_append] <;> omega)
  case Return l v => cases v <;> simp [Ast.children, Ast.size, sizeList] <;> omega

theorem loadLinesList_append (x : String) (l1 l2 : List Ast) :
    loadLinesList x (l1 ++ l2) = loadLinesList x l1 ++ loadLinesList x l2 := by
  induction l1 with
  | nil => simp [loadLinesList]
  | cons a as ih => simp [loadLinesList, ih]

/-- `loadLines` decomposes into the node's own contribution followed by the
contributions of its children in `iter_child_nodes` order. -/
theorem loadLines_decomp (x : String) (m : Ast) :
    loadLines x m = nameUseLines x m ++ loadLinesList x m.children := by
  cases m <;>
    try (simp [loadLines, loadLinesList, nameUseLines, Ast.children, loadLinesList_append])
  case Return l v =>
    cases v <;> simp [loadLines, loadLinesList, nameUseLines, Ast.children]

theorem hasAssignList_append (l1 l2 : List Ast) :
    hasAssignList (l1 ++ l2) = (hasAssignList l1 || hasAssignList l2) := by
  induction l1 with
  | nil => simp [hasAssignList]
  | cons a as ih => simp [hasAssignList, ih, Bool.or_assoc]

/-- A node with no `Assign` in its subtree has no `Assign` below any child. -/
theorem hasAssign_children (m : Ast) (h : hasAssign m = false) :
    hasAssignList m.children = false := by
  cases m <;>
    try (simp [hasAssign, Ast.children, hasAssignList, hasAssignList_append] at h ⊢ <;>
      simp [h])
  case Return l v =>
    cases v <;> simp [hasAssign, Ast.children, hasAssignList] at h ⊢ <;> simp [h]

theorem MultiMap.get_nil (x : String) : MultiMap.get [] x = [] := rfl

theorem MultiMap.get_cons (p : String × List Nat) (m : MultiMap) (x : String) :
    MultiMap.get (p :: m) x = if p.1 = x then p.2 else m.get x := by
  by_cases h : p.1 = x <;> simp [MultiMap.get, List.find?, h]

/-- Appending to the entries of a key different from the one read does not
change what is read. -/
theorem MultiMap.get_map_other (m : MultiMap) (y x : String) (l : Nat) (hyx : y ≠ x) :
    MultiMap.get (m.map (fun p => if p.1 = y then (p.1, p.2 ++ [l]) else p)) x
      = MultiMap.get m x := by
  have hxy : ¬ x = y := fun h => hyx h.symm
  induction m with
  | nil => rfl
  | cons p rest ih =>
      by_cases hpy : p.1 = y
      · have hpx : ¬ p.1 = x := by rw [hpy]; exact hyx
        simp [hpy, MultiMap.get_cons, hpx, ih, hyx, hxy]
      · by_cases hpx : p.1 = x <;> simp [hpy, MultiMap.get_cons, hpx, ih, hyx, hxy]

/-- Appending to the entries of the key being read appends to its value
(the first entry with that key is the one read). -/
theorem MultiMap.get_map_same (m : MultiMap) (x : String) (l : Nat)
    (hx : m.any (fun p => p.1 = x) = true) :
    MultiMap.get (m.map (fun p => if p.1 = x then (p.1, p.2 ++ [l]) else p)) x
      = MultiMap.get m x ++ [l] := by
  induction m with
  | nil => simp at hx
  | cons p rest ih =>
      by_cases hpx : p.1 = x
      · simp [hpx, MultiMap.get_cons]
      · have hrest : rest.any (fun p => p.1 = x) = true := by
          simp [List.any_cons, hpx] at hx
          simpa using hx
        simp [hpx, MultiMap.get_cons, ih hrest]

theorem MultiMap.get_append_single (m : MultiMap) (y x : String) (l : Nat) :
    MultiMap.get (m ++ [(y, [l])]) x
      = (if m.any (fun p => p.1 = x) then MultiMap.get m x else if y = x then [l] else []) := by
  induction m with
  | nil => by_cases hyx : y = x <;> simp [MultiMap.get_cons, MultiMap.get_nil, hyx]
  | cons p rest ih =>
      by_cases hpx : p.1 = x
      · simp [MultiMap.get_cons, hpx, List.any_cons]
      · simp only [List.cons_append]
        rw [MultiMap.get_cons, if_neg hpx, ih, List.any_cons, decide_eq_false hpx,
          Bool.false_or, MultiMap.get_cons, if_neg hpx]

theorem MultiMap.get_eq_nil_of_not_any (m : MultiMap) (x : String)
    (hx : ¬ (m.any (fun p => p.1 = x)) = true) : MultiMap.get m x = [] := by
  induction m with
  | nil => rfl
  | cons p rest ih =>
      simp only [List.any_cons, Bool.or_eq_true, decide_eq_true_eq, not_or] at hx
      simp [MultiMap.get_cons, hx.1, ih (by simpa using hx.2)]

/-- `defaultdict(list)` append: reading the pushed key sees the new line at
the end, reading any other key is unchanged. -/
theorem MultiMap.get_push (m : MultiMap) (y x : String) (l : Nat) :
    MultiMap.get (m.push y l) x = MultiMap.get m x ++ (if y = x then [l] else []) := by
  unfold MultiMap.push
  by_cases hy : m.any (fun p => p.1 = y)
  · simp only [hy, if_true]
    by_cases hyx : y = x
    · subst hyx
      simp [MultiMap.get_map_same m y l hy]
    · simp [MultiMap.get_map_other m y x l hyx, hyx]

  · rw [if_neg hy]
    rw [MultiMap.get_append_single]
    by_cases hx : m.any (fun p => p.1 = x)
    · -- x has an entry but y does not, so y ≠ x and nothing is appended
      have hyx : ¬ y = x := by
        intro h
        rw [h] at hy
        exact hy hx
      have hget : MultiMap.get m x ++ (if y = x then [l] else []) = MultiMap.get m x := by
        simp [hyx]
      simp [hx, hget]
    · -- no entry for x in m: reading x gives [] before the push
      simp [hx, MultiMap.get_eq_nil_of_not_any m x hx]

/-- The `ast.walk(node.value)` loop of `visit_Assign` appends the
assignment's line once per `Name` (any context) met on the walk, and leaves
`definitions` unchanged. -/
theorem recordAnyName_fold (l : Nat) (ns : List Ast) (st : DFState) (x : String) :
    MultiMap.get ((ns.foldl (recordAnyName l) st).uses) x
      = MultiMap.get st.uses x
        ++ List.replicate ((ns.filter (fun n => match n with
            | .Name _ y _ => y = x
            | _ => false)).length) l
    ∧ (ns.foldl (recordAnyName l) st).defs = st.defs := by
  induction ns generalizing st with
  | nil => simp
  | cons n rest ih =>
      rw [List.foldl_cons]
      refine ⟨?_, ?_⟩
      · cases n with
        | Name ln y c =>
            by_cases hyx : y = x
            · subst hyx
              rw [(ih _).1]
              simp [recordAnyName, MultiMap.get_push, List.filter_cons, List.replicate_succ]
            · rw [(ih _).1]
              simp [recordAnyName, MultiMap.get_push, hyx, List.filter_cons]
        | _ =>
            rw [(ih _).1]
            simp [recordAnyName, List.filter_cons]
      · cases n with
        | Name ln y c =>
            rw [(ih _).2]
            cases c <;> simp [recordAnyName]
        | _ =>
            rw [(ih _).2]
            simp [recordAnyName]

/-- The target loop of `visit_Assign` touches only `definitions`. -/
theorem defsFold_uses (l : Nat) (ts : List Ast) (st : DFState) :
    (ts.foldl (fun acc t => match t with
      | .Name _ x _ => { acc with defs := MultiMap.push acc.defs x l }
      | _ => acc) st).uses = st.uses := by
  induction ts generalizing st with
  | nil => rfl
  | cons t rest ih =>
      rw [List.foldl_cons, ih]
      cases t <;> rfl

/-- Uses recorded by the visitor on an `Assign`-free subtree: exactly the
`Load`-context `Name` lines, in visit order, appended to the state. -/
theorem dfVisitF_uses_hom : ∀ fuel : Nat,
    (∀ m st x, 3 * m.size ≤ fuel → hasAssign m = false →
        MultiMap.get (dfVisitF fuel m st).uses x
          = MultiMap.get st.uses x ++ loadLines x m)
    ∧ (∀ n st x, 3 * n.size - 1 ≤ fuel → hasAssignList n.children = false →
        MultiMap.get (dfGenericF fuel n st).uses x
          = MultiMap.get st.uses x ++ loadLinesList x n.children)
    ∧ (∀ l st x, 3 * sizeList l + 1 ≤ fuel → hasAssignList l = false →
        MultiMap.get (dfListF fuel l st).uses x
          = MultiMap.get st.uses x ++ loadLinesList x l) := by
  intro fuel
  induction fuel using Nat.strong_induction_on with
  | _ fuel ih =>
    match fuel with
    | 0 =>
        refine ⟨?_, ?_, ?_⟩
        · intro m st x hle _
          have := Ast.size_pos m
          omega
        · intro n st x hle _
          have := Ast.size_pos n
          omega
        · intro l st x hle _
          omega
    | fuel + 1 =>
        have ihN := (ih fuel (Nat.lt_succ_self fuel)).1
        have ihG := (ih fuel (Nat.lt_succ_self fuel)).2.1
        have ihL := (ih fuel (Nat.lt_succ_self fuel)).2.2
        refine ⟨?_, ?_, ?_⟩
        · intro m st x hle hna
          have hch : hasAssignList m.children = false := hasAssign_children m hna
          have hgen : 3 * m.size - 1 ≤ fuel := by have := Ast.size_pos m; omega
          cases m with
          | Assign l ts v => simp [hasAssign] at hna
          | Name ln y c =>
              rw [loadLines_decomp]
              cases c <;>
                (simp only [dfVisitF]
                 rw [ihG _ _ x hgen hch]
                 by_cases hyx : y = x <;>
                   simp [MultiMap.get_push, nameUseLines, Ast.children, hyx])
          | _ =>
              rw [loadLines_decomp]
              simp only [dfVisitF]
              rw [ihG _ _ x hgen hch]
              simp [nameUseLines]
        · intro n st x hle hch
          have hgl : 3 * sizeList n.children + 1 ≤ fuel := by
            have := children_size_lt n
            omega
          simp only [dfGenericF]
          exact ihL _ _ x hgl hch
        · intro l st x hle hchl
          cases l with
          | nil => simp [dfListF, loadLinesList]
          | cons a as =>
              simp only [hasAssignList, Bool.or_eq_false_iff] at hchl
              have ha : 3 * a.size ≤ fuel := by
                simp only [sizeList] at hle
                omega
              have has : 3 * sizeList as + 1 ≤ fuel := by
                simp only [sizeList] at hle
                have := Ast.size_pos a
                omega
              simp only [dfListF]
              rw [ihL _ _ x has hchl.2, ihN _ _ x ha hchl.1, loadLinesList,
                List.append_assoc]

/-- Every clone emitted by `_detect_type1_clones` carries similarity 100,
size `min_lines` and severity `HIGH` (invariant of the emitting fold). -/
theorem type1_emitted_shape (groups : MultiMap) (minLines : Nat) (filePath : String)
    (cs : List CodeClone)
    (h0 : ∀ c ∈ cs, c.similarity = 100 ∧ c.size = minLines ∧ c.severity = "HIGH") :
    ∀ c ∈ groups.foldl (fun cs p =>
        if p.2.length > 1 then
          cs ++ (upperPairs p.2).map (fun q =>
            (⟨"Type 1", filePath, filePath, (q.1 + 1, q.1 + minLines), (q.2 + 1, q.2 + minLines),
              100, minLines, "HIGH"⟩ : CodeClone))
        else cs) cs,
      c.similarity = 100 ∧ c.size = minLines ∧ c.severity = "HIGH" := by
  induction groups generalizing cs with
  | nil => exact h0
  | cons g gs ih =>
      intro c hc
      refine ih _ ?_ c hc
      intro c2 hc2
      by_cases hlen : g.2.length > 1
      · simp only [List.foldl_cons, if_pos hlen, List.mem_append] at hc2 ⊢
        rcases hc2 with h | h
        · exact h0 c2 h
        · rcases List.mem_map.mp h with ⟨q, _, rfl⟩
          exact ⟨rfl, rfl, rfl⟩
      · simp only [List.foldl_cons, if_neg hlen] at hc2
        exact h0 c2 hc2

/-! # Claim theorems -/

/-- **C1 counterexample**: the non-empty tree `while True: pass` yields a
CFG with zero in-degree-0 nodes (the back-edge re-enters the only root), so
"the number of in-degree-0 nodes is at least 1" fails. -/
theorem C1_counterexample :
    (buildControlFlowGraph (whileTrueTree 1 2)).rootIds.length = 0 := by decide

/-- **C2 counterexample**: on a file where two functions with
byte-identical 8-line bodies are pasted twice, the in-file Type-1 detector
does not report exactly 1 CloneRecord (it reports 3, one per duplicated
6-line window pair). -/
theorem C2_counterexample :
    ¬ (detectType1Clones scenarioBLines "test.py" 6).length = 1 := by decide

/-- **C2 (amended)**: on Scenario B's file the in-file exact-clone detector
reports 3 CloneRecords — one per pair of 6-line windows sharing a hash —
each with similarity 100, size `min_lines = 6` (not the block length 8) and
severity `HIGH` (not `MEDIUM`; `_detect_type1_clones` hard-codes `HIGH`);
in general every Type-1 in-file record has similarity 100, size
`min_lines` and severity `HIGH`. -/
theorem C2_type1_scenarioB :
    detectType1Clones scenarioBLines "test.py" 6 =
      [⟨"Type 1", "test.py", "test.py", (2, 7), (11, 16), 100, 6, "HIGH"⟩,
       ⟨"Type 1", "test.py", "test.py", (3, 8), (12, 17), 100, 6, "HIGH"⟩,
       ⟨"Type 1", "test.py", "test.py", (4, 9), (13, 18), 100, 6, "HIGH"⟩]
    ∧ ∀ lines path minLines c, c ∈ detectType1Clones lines path minLines →
        c.similarity = 100 ∧ c.size = minLines ∧ c.severity = "HIGH" := by
  refine ⟨by decide, ?_⟩
  intro lines path minLines c hc
  exact type1_emitted_shape _ _ _ [] (by intro c2 h; cases h) c hc

/-- **C2 witness**: the amended theorem applied at Scenario B's first
emitted record. -/
theorem C2_type1_scenarioB_witness :
    (⟨"Type 1", "test.py", "test.py", (2, 7), (11, 16), 100, 6, "HIGH"⟩ : CodeClone).similarity
      = 100 :=
  (C2_type1_scenarioB.2 scenarioBLines "test.py" 6 _
    (by rw [C2_type1_scenarioB.1]; exact List.mem_cons_self _ _)).1

/-- **C3**: the CFG of a `while True: pass` shaped tree has exactly one
elementary cycle, that cycle has no exit, and exactly one error-severity
infinite-loop issue is emitted; the CFG of a `while cond: pass; break`
shaped tree (a loop-body statement plus the loop node's second out-edge
leaving the cycle) yields no infinite-loop issue. -/
theorem C3_infinite_loop_detection :
    elementaryCycles (buildControlFlowGraph (whileTrueTree 1 2)) = [[0, 1]]
    ∧ hasExit (buildControlFlowGraph (whileTrueTree 1 2)) [0, 1] = false
    ∧ infiniteLoopIssues (buildControlFlowGraph (whileTrueTree 1 2)) =
        [⟨"potential_infinite_loop", "error", "Detected potential infinite loop"⟩]
    ∧ infiniteLoopIssues (buildControlFlowGraph (whileBreakTree 1 2 3)) = [] := by
  exact ⟨by decide, by decide, by decide, by decide⟩

/-- **C4 counterexample**: on a source unit that fails to parse, the
deep-analysis engine propagates the parse failure (`ast.parse` is not
wrapped in `try/except` inside `analyze_file`), and the clone detector
still returns its (possibly non-zero) line-based Type-1 findings rather
than zero findings. -/
theorem C4_counterexample :
    deepAnalyzeFile .syntaxError = .error "SyntaxError"
    ∧ (detectClonesInFile (fun _ _ => 0) scenarioBLines .syntaxError "test.py").length = 3 :=
  ⟨rfl, by decide⟩

/-- **C4 (amended)**: on a failing parse the metrics calculator returns an
error record instead of raising, and the clone detector returns exactly its
Type-1 findings computed from the raw lines; the deep-analysis engine,
however, propagates the parse failure to its caller. -/
theorem C4_parse_failure_behavior (ratio : String → String → ℚ) (lines : List String)
    (path : String) :
    analyzePythonFile .syntaxError = .errorResult "SyntaxError"
    ∧ detectClonesInFile ratio lines .syntaxError path = detectType1Clones lines path 6
    ∧ deepAnalyzeFile .syntaxError = .error "SyntaxError" :=
  ⟨rfl, rfl, rfl⟩

/-- **C6**: for a function whose body is a `for` loop containing a
triple-nested `if` (no boolean operators, no calls), the cognitive
complexity is 1 (for at depth 0) + 2 (if at depth 1) + 3 (if at depth 2)
+ 4 (if at depth 3) = 10. -/
theorem C6_cognitive_scenarioA :
    cognitiveComplexity (scenarioATree "func" "i" "items" "a" "b" "c" 1 2 3 4 5 6) = 10 := by
  decide

/-- **C8 counterexample**: for `def f(): f()` the call-graph builder adds
the self-edge `(f, f)` — there is no `called != func_name` guard — so a
single self-recursive function contributes one edge, not zero. -/
theorem C8_counterexample : ("f", "f") ∈ (buildCallGraph selfRecTree).2 := by decide

/-- **C9**: on `x = 1; y = x` the code reports `total_variables = 4`: the
two variable-name nodes plus the phantom `x@1`/`x@2` endpoint nodes that
`add_edge` auto-creates for the data-dependency edge, whereas the number of
distinct variable names observed is 2. -/
theorem C9_total_variables_mismatch :
    dataFlowTotalVariables c9Tree = 4
    ∧ distinctVariableCount c9Tree = 2
    ∧ dfgNodes c9Tree = ["y", "x", "x@1", "x@2"] := by
  exact ⟨by decide, by decide, by decide⟩


/-- **C10**: visiting an assignment records, for each identifier `x`, the
assignment's own line once per `Name` occurrence of `x` anywhere in the
value (the `ast.walk(node.value)` loop of `visit_Assign`), and then — via
`generic_visit` dispatching to `visit_Name` — one more use at the `Name`
node's own line for every `Load`-context occurrence.  So identifiers loaded
inside assignment values are double-counted: once at the assignment
statement's line and once at the identifier's own line.  (The value and
targets are restricted to `Assign`-free subtrees, as Python expressions
are.) -/
theorem C10_assign_value_double_count (l : Nat) (ts : List Ast) (v : Ast) (st : DFState)
    (x : String) (hv : hasAssign v = false) (hts : hasAssignList ts = false) :
    MultiMap.get (dfVisit (.Assign l ts v) st).uses x
      = MultiMap.get st.uses x
        ++ List.replicate (countNamesAll x v) l
        ++ (loadLinesList x ts ++ loadLines x v) := by
  unfold dfVisit
  have hsz : 3 * (Ast.Assign l ts v).size = (3 * sizeList ts + 3 * v.size + 2) + 1 := by
    simp [Ast.size]
    ring
  rw [hsz]
  simp only [dfVisitF]
  have hk : 3 * sizeList ts + 3 * v.size + 2 = (3 * sizeList ts + 3 * v.size + 1) + 1 := rfl
  rw [hk]
  simp only [dfGenericF, Ast.children]
  have hbound : 3 * sizeList (ts ++ [v]) + 1 ≤ 3 * sizeList ts + 3 * v.size + 1 := by
    rw [sizeList_append]
    simp [sizeList]
    omega
  have hassign : hasAssignList (ts ++ [v]) = false := by
    rw [hasAssignList_append]
    simp [hasAssignList, hts, hv]
  rw [(dfVisitF_uses_hom (3 * sizeList ts + 3 * v.size + 1)).2.2 (ts ++ [v]) _ x hbound hassign]
  rw [(recordAnyName_fold l (walkBFS [v]) _ x).1]
  rw [defsFold_uses]
  rw [loadLinesList_append]
  simp [countNamesAll, loadLinesList, List.append_assoc]

/-- **C10 witness**: for `y = x` at line 5 whose value loads `x` written at
line 7, the recorded uses of `x` are `[5, 7]` — the assignment's line and
the identifier's own line. -/
theorem C10_assign_value_double_count_witness :
    MultiMap.get (dfVisit (.Assign 5 [.Name 5 "y" .Store] (.Name 7 "x" .Load))
      .initial).uses "x" = [5, 7] := by
  have h := C10_assign_value_double_count 5 [.Name 5 "y" .Store] (.Name 7 "x" .Load)
    .initial "x" (by decide) (by decide)
  rw [h]
  decide


theorem renameList_eq_map (σ τ : String → String) (l : List Ast) :
    renameList σ τ l = l.map (renameAst σ τ) := by
  induction l with
  | nil => rfl
  | cons a as ih => simp [renameList, ih]

theorem rename_kind (σ τ : String → String) (n : Ast) :
    (renameAst σ τ n).kind = n.kind := by
  cases n <;> try (simp [renameAst, Ast.kind])
  case Return l v => cases v <;> simp [renameAst, Ast.kind]

theorem rename_size (σ τ : String → String) : ∀ n : Ast, (renameAst σ τ n).size = n.size := by
  apply renameAst.induct σ τ (fun n => (renameAst σ τ n).size = n.size)
    (fun l => sizeList (renameList σ τ l) = sizeList l) <;>
    (intros; simp_all [renameAst, renameList, Ast.size, sizeList])

theorem rename_children (σ τ : String → String) (n : Ast) :
    (renameAst σ τ n).children = n.children.map (renameAst σ τ) := by
  cases n <;> try (simp [renameAst, Ast.children, renameList_eq_map])
  case Return l v => cases v <;> simp [renameAst, Ast.children]

theorem fingerTokens_rename (σ τ : String → String) (n : Ast) :
    fingerTokens (renameAst σ τ n) = fingerTokens n := by
  cases n <;>
    first
      | (simp [renameAst, fingerTokens, Ast.kind]; done)
      | (rename_i v; cases v <;> simp [renameAst, fingerTokens, Ast.kind]; done)
      | (simp only [renameAst, fingerTokens]
         rw [rename_kind]
         simp [Ast.kind])

theorem walkF_map_rename (σ τ : String → String) :
    ∀ fuel (q : List Ast),
      walkF fuel (q.map (renameAst σ τ)) = (walkF fuel q).map (renameAst σ τ) := by
  intro fuel
  induction fuel with
  | zero => intro q; simp [walkF]
  | succ fuel ih =>
      intro q
      cases q with
      | nil => simp [walkF]
      | cons a rest =>
          simp only [List.map_cons, walkF]
          rw [rename_children, ← List.map_append, ih]

/-- **C5**: the structural fingerprint of the Type-2 clone detector is
invariant under any renaming of identifiers and literals (no identifier or
literal name ever occurs in it), and a `for` node and a `while` node both
contribute the same `LOOP` token after their kind tag, while an `if` node
contributes `COND`. -/
theorem C5_fingerprint_structure (σ τ : String → String) (n : Ast) (l : Nat)
    (t tg it : Ast) (b o : List Ast) :
    getAstFingerprint (renameAst σ τ n) = getAstFingerprint n
    ∧ fingerTokens (.For l tg it b) = "For" ++ "LOOP"
    ∧ fingerTokens (.While l t b) = "While" ++ "LOOP"
    ∧ fingerTokens (.If l t b o) = "If" ++ "COND" := by
  refine ⟨?_, rfl, rfl, rfl⟩
  unfold getAstFingerprint walkBFS
  have h1 : [renameAst σ τ n] = [n].map (renameAst σ τ) := rfl
  rw [h1]
  have h2 : sizeList (List.map (renameAst σ τ) [n]) = sizeList [n] := by
    simp [sizeList, rename_size]
  rw [h2, walkF_map_rename]
  congr 1
  rw [List.map_map]
  apply List.map_congr_left
  intro a _
  exact fingerTokens_rename σ τ a


/-- `_compare_behaviors` equals the spec's weighted indicator sum: the
accumulated `factors` total is exactly 1, so the division is the identity. -/
theorem compareBehaviors_eq_spec (b1 b2 : Behavior) :
    compareBehaviors b1 b2 = specSemanticScore b1 b2 := by
  unfold compareBehaviors specSemanticScore
  norm_num

/-- **C7**: the semantic-clone similarity is the sum of 0.30 for identical
operator-kind sequences, 0.20 for matching return-expression kinds, 0.25
for intersecting callee-name sets, and 0.125 each for matching loop and
conditional presence (`compareBehaviors_eq_spec`), and a pair is reported
exactly when that score exceeds 0.70. -/
theorem C7_semantic_similarity (b1 b2 : Behavior) (tree : Ast) (r : SemanticClone) :
    compareBehaviors b1 b2 = specSemanticScore b1 b2
    ∧ (r ∈ detectSemanticClones tree ↔
        ∃ p ∈ upperPairs (functionsOf tree),
          specSemanticScore (analyzeFunctionBehavior p.1) (analyzeFunctionBehavior p.2) > 7/10
          ∧ r = ⟨fnName p.1, fnName p.2, p.1.lineno, p.2.lineno,
              specSemanticScore (analyzeFunctionBehavior p.1)
                (analyzeFunctionBehavior p.2) * 100⟩) := by
  refine ⟨compareBehaviors_eq_spec b1 b2, ?_⟩
  unfold detectSemanticClones
  rw [List.mem_filterMap]
  constructor
  · rintro ⟨p, hp, hout⟩
    by_cases hgt : compareBehaviors (analyzeFunctionBehavior p.1)
        (analyzeFunctionBehavior p.2) > 7/10
    · rw [if_pos hgt] at hout
      refine ⟨p, hp, ?_, ?_⟩
      · rw [← compareBehaviors_eq_spec]
        exact hgt
      · have hr : r = ⟨fnName p.1, fnName p.2, p.1.lineno, p.2.lineno,
            compareBehaviors (analyzeFunctionBehavior p.1)
              (analyzeFunctionBehavior p.2) * 100⟩ :=
          (Option.some.injEq _ _ ▸ hout).symm
        rw [hr, compareBehaviors_eq_spec]
    · rw [if_neg hgt] at hout
      cases hout
  · rintro ⟨p, hp, hgt, heq⟩
    refine ⟨p, hp, ?_⟩
    have hgt2 : compareBehaviors (analyzeFunctionBehavior p.1)
        (analyzeFunctionBehavior p.2) > 7/10 := by
      rw [compareBehaviors_eq_spec]
      exact hgt
    rw [if_pos hgt2, heq, compareBehaviors_eq_spec]


theorem insertEdge_mem (es : List (String × String)) (e0 e : String × String)
    (h : e ∈ insertEdge es e0) : e ∈ es ∨ e = e0 := by
  unfold insertEdge at h
  by_cases h0 : e0 ∈ es
  · rw [if_pos h0] at h
    exact .inl h
  · rw [if_neg h0] at h
    rcases List.mem_append.mp h with h | h
    · exact .inl h
    · simp at h
      exact .inr h

theorem cgStep_mem (functions : List (String × Ast)) (fname : String)
    (hf : fname ∈ functions.map (fun p => p.1)) (es : List (String × String)) (n : Ast)
    (h0 : ∀ e ∈ es, e.1 ∈ functions.map (fun p => p.1) ∧ e.2 ∈ functions.map (fun p => p.1)) :
    ∀ e ∈ cgStep functions fname es n,
      e.1 ∈ functions.map (fun p => p.1) ∧ e.2 ∈ functions.map (fun p => p.1) := by
  intro e he
  cases n <;> try (exact h0 e he)
  case Call l f a =>
    cases f <;> try (exact h0 e he)
    case Name ln called c =>
      simp only [cgStep] at he
      by_cases hq : functions.any (fun q => q.1 = called) = true
      · rw [if_pos hq] at he
        rcases insertEdge_mem _ _ _ he with h | h
        · exact h0 e h
        · subst h
          refine ⟨hf, ?_⟩
          simp only [List.any_eq_true, decide_eq_true_eq] at hq
          rcases hq with ⟨q, hqmem, hq1⟩
          exact hq1 ▸ List.mem_map_of_mem (fun p => p.1) hqmem
      · rw [if_neg hq] at he
        exact h0 e he

theorem cg_walk_fold_mem (functions : List (String × Ast)) (fname : String)
    (hf : fname ∈ functions.map (fun p => p.1)) (ns : List Ast)
    (es : List (String × String))
    (h0 : ∀ e ∈ es, e.1 ∈ functions.map (fun p => p.1) ∧ e.2 ∈ functions.map (fun p => p.1)) :
    ∀ e ∈ ns.foldl (cgStep functions fname) es,
      e.1 ∈ functions.map (fun p => p.1) ∧ e.2 ∈ functions.map (fun p => p.1) := by
  induction ns generalizing es with
  | nil => exact h0
  | cons n rest ih =>
      intro e he
      rw [List.foldl_cons] at he
      exact ih _ (cgStep_mem functions fname hf es n h0) e he

theorem cg_outer_fold_mem (functions fs : List (String × Ast))
    (es : List (String × String))
    (hfs : ∀ p ∈ fs, p.1 ∈ functions.map (fun p => p.1))
    (h0 : ∀ e ∈ es, e.1 ∈ functions.map (fun p => p.1) ∧ e.2 ∈ functions.map (fun p => p.1)) :
    ∀ e ∈ fs.foldl (fun es p => (walkBFS [p.2]).foldl (cgStep functions p.1) es) es,
      e.1 ∈ functions.map (fun p => p.1) ∧ e.2 ∈ functions.map (fun p => p.1) := by
  induction fs generalizing es with
  | nil => exact h0
  | cons p rest ih =>
      intro e he
      rw [List.foldl_cons] at he
      refine ih _ (fun q hq => hfs q (List.mem_cons_of_mem p hq)) ?_ e he
      exact cg_walk_fold_mem functions p.1 (hfs p (List.mem_cons_self p rest)) _ es h0

/-- **C8 (amended)**: every call-graph edge joins indexed function names —
but not necessarily *other* ones: a direct self-call `f(...)` inside `f`
passes the `called in functions` check (there is no `called != func_name`
guard) and adds the self-loop `(f, f)`, so a single self-recursive function
contributes exactly one edge. -/
theorem C8_call_graph_edges :
    (∀ t e, e ∈ (buildCallGraph t).2 →
      e.1 ∈ (buildCallGraph t).1 ∧ e.2 ∈ (buildCallGraph t).1)
    ∧ buildCallGraph selfRecTree = (["f"], [("f", "f")]) := by
  refine ⟨?_, by decide⟩
  intro t e he
  unfold buildCallGraph at he ⊢
  exact cg_outer_fold_mem (indexFunctions t) (indexFunctions t) [] (fun p hp => by
    exact List.mem_map_of_mem (fun p => p.1) hp) (by intro e2 h; cases h) e he

/-- **C8 witness**: the amended theorem applied to the self-recursive
example: its unique edge `(f, f)` joins indexed names. -/
theorem C8_call_graph_edges_witness :
    ("f", "f").1 ∈ (buildCallGraph selfRecTree).1
    ∧ ("f", "f").2 ∈ (buildCallGraph selfRecTree).1 :=
  C8_call_graph_edges.1 selfRecTree ("f", "f") (by decide)


theorem CfgExtends.trans2 {s1 s2 s3 : CfgState} (h12 : CfgExtends s1 s2)
    (h23 : CfgExtends s2 s3) : CfgExtends s1 s3 := by
  refine ⟨h23.1, le_trans h12.2.1 h23.2.1, ?_⟩
  intro e he
  rcases h23.2.2 e he with h | h
  · exact h12.2.2 e h
  · exact .inr (le_trans h12.2.1 h)

theorem pushNode_spec (k : String) (ln : Nat) (parent : Option Nat) (s : CfgState)
    (hInv : CfgInv s) (hp : ∀ p, parent = some p → p < s.counter) :
    CfgInv (pushNode k ln parent s)
    ∧ (pushNode k ln parent s).counter = s.counter + 1
    ∧ ∀ e ∈ (pushNode k ln parent s).edges,
        e ∈ s.edges ∨ ∃ p, parent = some p ∧ e = (p, s.counter) := by
  have hids : (pushNode k ln parent s).ids = List.range (s.counter + 1) := by
    simp only [CfgState.ids, pushNode, List.map_append, List.map_cons, List.map_nil]
    rw [List.range_succ]
    rw [← hInv.1]
    rfl
  cases parent with
  | none =>
      refine ⟨⟨hids, ?_⟩, rfl, ?_⟩
      · intro e he
        simp only [pushNode] at he
        have := hInv.2 e he
        simp only [pushNode]
        omega
      · intro e he
        simp only [pushNode] at he
        exact .inl he
  | some p =>
      have hplt : p < s.counter := hp p rfl
      refine ⟨⟨hids, ?_⟩, rfl, ?_⟩
      · intro e he
        simp only [pushNode] at he
        rcases List.mem_append.mp he with h | h
        · have := hInv.2 e h
          simp only [pushNode]
          omega
        · simp at h
          subst h
          simp only [pushNode]
          omega
      · intro e he
        simp only [pushNode] at he
        rcases List.mem_append.mp he with h | h
        · exact .inl h
        · simp at h
          exact .inr ⟨p, rfl, h⟩

theorem pushNode_extends (k : String) (ln : Nat) (parent : Option Nat) (s : CfgState)
    (hInv : CfgInv s) (hp : ∀ p, parent = some p → p < s.counter) :
    CfgExtends s (pushNode k ln parent s) := by
  have P := pushNode_spec k ln parent s hInv hp
  refine ⟨P.1, by rw [P.2.1]; omega, ?_⟩
  intro e he
  rcases P.2.2 e he with h | ⟨p, hps, hpe⟩
  · exact .inl h
  · right
    rw [hpe]

theorem CfgExtends.refl2 (s : CfgState) (h : CfgInv s) : CfgExtends s s :=
  ⟨h, le_refl _, fun _ he => .inl he⟩

/-- Classify the final edges of a non-back-edge node case: push's edges are
old edges or the parent edge; later stages only add edges into nodes
allocated after the fresh one. -/
theorem stages_classify {s s1 sf : CfgState} (n : Ast) (parent : Option Nat)
    (hP : ∀ e ∈ s1.edges, e ∈ s.edges ∨ ∃ p, parent = some p ∧ e = (p, s.counter))
    (hc1 : s1.counter = s.counter + 1) (hext : CfgExtends s1 sf) :
    ∀ e ∈ sf.edges, NewEdgeOK n parent s e := by
  intro e he
  rcases hext.2.2 e he with h | h
  · rcases hP e h with h2 | h2
    · exact Or.inl h2
    · exact Or.inr (Or.inl h2)
  · right; right; right
    omega

/-- Package a node case of the invariant proof: the push step followed by
stages that only extend the state. -/
theorem node_case_wrap {s s1 sf : CfgState} (n : Ast) (parent : Option Nat)
    (hse : CfgExtends s s1)
    (hP : ∀ e ∈ s1.edges, e ∈ s.edges ∨ ∃ p, parent = some p ∧ e = (p, s.counter))
    (hc1 : s1.counter = s.counter + 1)
    (hext : CfgExtends s1 sf) :
    CfgExtends s sf ∧ s.counter < sf.counter
      ∧ ∀ e ∈ sf.edges, NewEdgeOK n parent s e := by
  refine ⟨hse.trans2 hext, ?_, stages_classify n parent hP hc1 hext⟩
  have := hext.2.1
  omega

theorem visitNodeF_spec : ∀ fuel : Nat,
    (∀ n parent s, 3 * n.size ≤ fuel → CfgInv s →
        (∀ p, parent = some p → p < s.counter) →
        CfgExtends s (visitNodeF fuel n parent s)
        ∧ s.counter < (visitNodeF fuel n parent s).counter
        ∧ ∀ e ∈ (visitNodeF fuel n parent s).edges, NewEdgeOK n parent s e)
    ∧ (∀ l p s, 3 * sizeList l + 1 ≤ fuel → CfgInv s → p < s.counter →
        CfgExtends s (visitListF fuel l p s))
    ∧ (∀ hs p s, 3 * sizeList hs + 2 ≤ fuel → CfgInv s → p < s.counter →
        CfgExtends s (visitHandlersF fuel hs p s)) := by
  intro fuel
  induction fuel using Nat.strong_induction_on with
  | _ fuel ih =>
    match fuel with
    | 0 =>
        refine ⟨?_, ?_, ?_⟩
        · intro n parent s hle
          have := Ast.size_pos n
          omega
        · intro l p s hle
          omega
        · intro hs p s hle
          omega
    | fuel + 1 =>
        have ihN := (ih fuel (Nat.lt_succ_self fuel)).1
        have ihL := (ih fuel (Nat.lt_succ_self fuel)).2.1
        have ihH := (ih fuel (Nat.lt_succ_self fuel)).2.2
        refine ⟨?_, ?_, ?_⟩
        · intro n parent s hle hInv hp
          cases n with
          | Module b =>
              simp only [visitNodeF]
              have P := pushNode_spec "Module" 0 parent s hInv hp
              have hb : 3 * sizeList b + 1 ≤ fuel := by
                simp only [Ast.size] at hle; omega
              have hcur1 : s.counter < (pushNode "Module" 0 parent s).counter := by
                rw [P.2.1]; omega
              exact node_case_wrap _ parent (pushNode_extends _ _ parent s hInv hp)
                P.2.2 P.2.1 (ihL b s.counter _ hb P.1 hcur1)
          | FunctionDef nm ln a b =>
              simp only [visitNodeF]
              have P := pushNode_spec "FunctionDef" ln parent s hInv hp
              have hna : 3 * a.size ≤ fuel := by
                simp only [Ast.size] at hle; omega
              have hb : 3 * sizeList b + 1 ≤ fuel := by
                simp only [Ast.size] at hle
                have := Ast.size_pos a
                omega
              have hcur1 : s.counter < (pushNode "FunctionDef" ln parent s).counter := by
                rw [P.2.1]; omega
              have E1 := ihN a (some s.counter) _ hna P.1
                (fun q hq => by cases hq; exact hcur1)
              have hcur2 : s.counter < (visitNodeF fuel a (some s.counter)
                  (pushNode "FunctionDef" ln parent s)).counter :=
                lt_of_lt_of_le hcur1 E1.1.2.1
              have E2 := ihL b s.counter _ hb E1.1.1 hcur2
              exact node_case_wrap _ parent (pushNode_extends _ _ parent s hInv hp)
                P.2.2 P.2.1 (E1.1.trans2 E2)
          | Arguments a =>
              simp only [visitNodeF]
              have P := pushNode_spec "arguments" 0 parent s hInv hp
              have hb : 3 * sizeList a + 1 ≤ fuel := by
                simp only [Ast.size] at hle; omega
              have hcur1 : s.counter < (pushNode "arguments" 0 parent s).counter := by
                rw [P.2.1]; omega
              exact node_case_wrap _ parent (pushNode_extends _ _ parent s hInv hp)
                P.2.2 P.2.1 (ihL a s.counter _ hb P.1 hcur1)
          | Arg nm ln =>
              simp only [visitNodeF]
              have P := pushNode_spec "arg" ln parent s hInv hp
              exact node_case_wrap _ parent (pushNode_extends _ _ parent s hInv hp)
                P.2.2 P.2.1 (CfgExtends.refl2 _ P.1)
          | If ln t b o =>
              simp only [visitNodeF]
              have P := pushNode_spec "If" ln parent s hInv hp
              have hb : 3 * sizeList b + 1 ≤ fuel := by
                simp only [Ast.size] at hle; omega
              have ho : 3 * sizeList o + 1 ≤ fuel := by
                simp only [Ast.size] at hle; omega
              have hcur1 : s.counter < (pushNode "If" ln parent s).counter := by
                rw [P.2.1]; omega
              have E1 := ihL b s.counter _ hb P.1 hcur1
              have E2 := ihL o s.counter _ ho E1.1 (lt_of_lt_of_le hcur1 E1.2.1)
              exact node_case_wrap _ parent (pushNode_extends _ _ parent s hInv hp)
                P.2.2 P.2.1 (E1.trans2 E2)
          | While ln t b =>
              simp only [visitNodeF]
              have P := pushNode_spec "While" ln parent s hInv hp
              have hb : 3 * sizeList b + 1 ≤ fuel := by
                simp only [Ast.size] at hle; omega
              have hcur1 : s.counter < (pushNode "While" ln parent s).counter := by
                rw [P.2.1]; omega
              have E2 := ihL b s.counter _ hb P.1 hcur1
              split
              · -- back-edge added
                rename_i hlt
                set s2 := visitListF fuel b s.counter (pushNode "While" ln parent s) with hs2
                have hes : CfgExtends s s2 :=
                  (pushNode_extends _ _ parent s hInv hp).trans2 E2
                have hc2 : s.counter < s2.counter := by
                  have := E2.2.1
                  rw [P.2.1] at this
                  omega
                have hInv3 : CfgInv ⟨s2.nodes, s2.edges ++ [(s2.counter - 1, s.counter)],
                    s2.counter⟩ := by
                  refine ⟨E2.1.1, ?_⟩
                  intro e he
                  rcases List.mem_append.mp he with h | h
                  · exact E2.1.2 e h
                  · simp at h
                    subst h
                    simp
                    omega
                refine ⟨⟨hInv3, ?_, ?_⟩, ?_, ?_⟩
                · exact le_of_lt hc2
                · intro e he
                  rcases List.mem_append.mp he with h | h
                  · exact hes.2.2 e h
                  · simp at h
                    subst h
                    right
                    simp
                · exact hc2
                · intro e he
                  rcases List.mem_append.mp he with h | h
                  · exact stages_classify _ parent P.2.2 P.2.1 E2 e h
                  · simp at h
                    subst h
                    right; right; left
                    exact ⟨rfl, rfl⟩
              · exact node_case_wrap _ parent (pushNode_extends _ _ parent s hInv hp)
                  P.2.2 P.2.1 E2
          | For ln tg it b =>
              simp only [visitNodeF]
              have P := pushNode_spec "For" ln parent s hInv hp
              have hb : 3 * sizeList b + 1 ≤ fuel := by
                simp only [Ast.size] at hle; omega
              have hcur1 : s.counter < (pushNode "For" ln parent s).counter := by
                rw [P.2.1]; omega
              have E2 := ihL b s.counter _ hb P.1 hcur1
              split
              · rename_i hlt
                set s2 := visitListF fuel b s.counter (pushNode "For" ln parent s) with hs2
                have hes : CfgExtends s s2 :=
                  (pushNode_extends _ _ parent s hInv hp).trans2 E2
                have hc2 : s.counter < s2.counter := by
                  have := E2.2.1
                  rw [P.2.1] at this
                  omega
                have hInv3 : CfgInv ⟨s2.nodes, s2.edges ++ [(s2.counter - 1, s.counter)],
                    s2.counter⟩ := by
                  refine ⟨E2.1.1, ?_⟩
                  intro e he
                  rcases List.mem_append.mp he with h | h
                  · exact E2.1.2 e h
                  · simp at h
                    subst h
                    simp
                    omega
                refine ⟨⟨hInv3, ?_, ?_⟩, ?_, ?_⟩
                · exact le_of_lt hc2
                · intro e he
                  rcases List.mem_append.mp he with h | h
                  · exact hes.2.2 e h
                  · simp at h
                    subst h
                    right
                    simp
                · exact hc2
                · intro e he
                  rcases List.mem_append.mp he with h | h
                  · exact stages_classify _ parent P.2.2 P.2.1 E2 e h
                  · simp at h
                    subst h
                    right; right; left
                    exact ⟨rfl, rfl⟩
              · exact node_case_wrap _ parent (pushNode_extends _ _ parent s hInv hp)
                  P.2.2 P.2.1 E2
          | Try ln b hs =>
              simp only [visitNodeF]
              have P := pushNode_spec "Try" ln parent s hInv hp
              have hb : 3 * sizeList b + 1 ≤ fuel := by
                simp only [Ast.size] at hle; omega
              have hhs : 3 * sizeList hs + 2 ≤ fuel := by
                simp only [Ast.size] at hle; omega
              have hcur1 : s.counter < (pushNode "Try" ln parent s).counter := by
                rw [P.2.1]; omega
              have E1 := ihL b s.counter _ hb P.1 hcur1
              have E2 := ihH hs s.counter _ hhs E1.1 (lt_of_lt_of_le hcur1 E1.2.1)
              exact node_case_wrap _ parent (pushNode_extends _ _ parent s hInv hp)
                P.2.2 P.2.1 (E1.trans2 E2)
          | ExceptHandler ln b =>
              simp only [visitNodeF]
              have P := pushNode_spec "ExceptHandler" ln parent s hInv hp
              have hb : 3 * sizeList b + 1 ≤ fuel := by
                simp only [Ast.size] at hle; omega
              have hcur1 : s.counter < (pushNode "ExceptHandler" ln parent s).counter := by
                rw [P.2.1]; omega
              exact node_case_wrap _ parent (pushNode_extends _ _ parent s hInv hp)
                P.2.2 P.2.1 (ihL b s.counter _ hb P.1 hcur1)
          | Assign ln ts v =>
              simp only [visitNodeF]
              have P := pushNode_spec "Assign" ln parent s hInv hp
              have hts : 3 * sizeList ts + 1 ≤ fuel := by
                simp only [Ast.size] at hle
                have := Ast.size_pos v
                omega
              have hv : 3 * v.size ≤ fuel := by
                simp only [Ast.size] at hle; omega
              have hcur1 : s.counter < (pushNode "Assign" ln parent s).counter := by
                rw [P.2.1]; omega
              have E1 := ihL ts s.counter _ hts P.1 hcur1
              have hcur2 : s.counter < (visitListF fuel ts s.counter
                  (pushNode "Assign" ln parent s)).counter :=
                lt_of_lt_of_le hcur1 E1.2.1
              have E2 := ihN v (some s.counter) _ hv E1.1
                (fun q hq => by cases hq; exact hcur2)
              exact node_case_wrap _ parent (pushNode_extends _ _ parent s hInv hp)
                P.2.2 P.2.1 (E1.trans2 E2.1)
          | Return ln v =>
              cases v with
              | some v =>
                  simp only [visitNodeF]
                  have P := pushNode_spec "Return" ln parent s hInv hp
                  have hv : 3 * v.size ≤ fuel := by
                    simp only [Ast.size] at hle; omega
                  have hcur1 : s.counter < (pushNode "Return" ln parent s).counter := by
                    rw [P.2.1]; omega
                  have E1 := ihN v (some s.counter) _ hv P.1
                    (fun q hq => by cases hq; exact hcur1)
                  exact node_case_wrap _ parent (pushNode_extends _ _ parent s hInv hp)
                    P.2.2 P.2.1 E1.1
              | none =>
                  simp only [visitNodeF]
                  have P := pushNode_spec "Return" ln parent s hInv hp
                  exact node_case_wrap _ parent (pushNode_extends _ _ parent s hInv hp)
                    P.2.2 P.2.1 (CfgExtends.refl2 _ P.1)
          | ExprStmt ln v =>
              simp only [visitNodeF]
              have P := pushNode_spec "Expr" ln parent s hInv hp
              have hv : 3 * v.size ≤ fuel := by
                simp only [Ast.size] at hle; omega
              have hcur1 : s.counter < (pushNode "Expr" ln parent s).counter := by
                rw [P.2.1]; omega
              have E1 := ihN v (some s.counter) _ hv P.1
                (fun q hq => by cases hq; exact hcur1)
              exact node_case_wrap _ parent (pushNode_extends _ _ parent s hInv hp)
                P.2.2 P.2.1 E1.1
          | Pass ln =>
              simp only [visitNodeF]
              have P := pushNode_spec "Pass" ln parent s hInv hp
              exact node_case_wrap _ parent (pushNode_extends _ _ parent s hInv hp)
                P.2.2 P.2.1 (CfgExtends.refl2 _ P.1)
          | Break ln =>
              simp only [visitNodeF]
              have P := pushNode_spec "Break" ln parent s hInv hp
              exact node_case_wrap _ parent (pushNode_extends _ _ parent s hInv hp)
                P.2.2 P.2.1 (CfgExtends.refl2 _ P.1)
          | Name ln idn c =>
              simp only [visitNodeF]
              have P := pushNode_spec "Name" ln parent s hInv hp
              have hv : 3 * c.size ≤ fuel := by
                simp only [Ast.size] at hle; omega
              have hcur1 : s.counter < (pushNode "Name" ln parent s).counter := by
                rw [P.2.1]; omega
              have E1 := ihN c (some s.counter) _ hv P.1
                (fun q hq => by cases hq; exact hcur1)
              exact node_case_wrap _ parent (pushNode_extends _ _ parent s hInv hp)
                P.2.2 P.2.1 E1.1
          | Call ln f a =>
              simp only [visitNodeF]
              have P := pushNode_spec "Call" ln parent s hInv hp
              have hf : 3 * f.size ≤ fuel := by
                simp only [Ast.size] at hle; omega
              have ha : 3 * sizeList a + 1 ≤ fuel := by
                simp only [Ast.size] at hle
                have := Ast.size_pos f
                omega
              have hcur1 : s.counter < (pushNode "Call" ln parent s).counter := by
                rw [P.2.1]; omega
              have E1 := ihN f (some s.counter) _ hf P.1
                (fun q hq => by cases hq; exact hcur1)
              have hcur2 : s.counter < (visitNodeF fuel f (some s.counter)
                  (pushNode "Call" ln parent s)).counter :=
                lt_of_lt_of_le hcur1 E1.1.2.1
              have E2 := ihL a s.counter _ ha E1.1.1 hcur2
              exact node_case_wrap _ parent (pushNode_extends _ _ parent s hInv hp)
                P.2.2 P.2.1 (E1.1.trans2 E2)
          | BinOp ln op lf rt =>
              simp only [visitNodeF]
              have P := pushNode_spec "BinOp" ln parent s hInv hp
              have hlf : 3 * lf.size ≤ fuel := by
                simp only [Ast.size] at hle; omega
              have hop : 3 * op.size ≤ fuel := by
                simp only [Ast.size] at hle; omega
              have hrt : 3 * rt.size ≤ fuel := by
                simp only [Ast.size] at hle; omega
              have hcur1 : s.counter < (pushNode "BinOp" ln parent s).counter := by
                rw [P.2.1]; omega
              have E1 := ihN lf (some s.counter) _ hlf P.1
                (fun q hq => by cases hq; exact hcur1)
              have hcur2 := lt_of_lt_of_le hcur1 E1.1.2.1
              have E2 := ihN op (some s.counter) _ hop E1.1.1
                (fun q hq => by cases hq; exact hcur2)
              have hcur3 := lt_of_lt_of_le hcur2 E2.1.2.1
              have E3 := ihN rt (some s.counter) _ hrt E2.1.1
                (fun q hq => by cases hq; exact hcur3)
              exact node_case_wrap _ parent (pushNode_extends _ _ parent s hInv hp)
                P.2.2 P.2.1 ((E1.1.trans2 E2.1).trans2 E3.1)
          | BoolOp ln op vs =>
              simp only [visitNodeF]
              have P := pushNode_spec "BoolOp" ln parent s hInv hp
              have hop : 3 * op.size ≤ fuel := by
                simp only [Ast.size] at hle; omega
              have hvs : 3 * sizeList vs + 1 ≤ fuel := by
                simp only [Ast.size] at hle
                have := Ast.size_pos op
                omega
              have hcur1 : s.counter < (pushNode "BoolOp" ln parent s).counter := by
                rw [P.2.1]; omega
              have E1 := ihN op (some s.counter) _ hop P.1
                (fun q hq => by cases hq; exact hcur1)
              have hcur2 := lt_of_lt_of_le hcur1 E1.1.2.1
              have E2 := ihL vs s.counter _ hvs E1.1.1 hcur2
              exact node_case_wrap _ parent (pushNode_extends _ _ parent s hInv hp)
                P.2.2 P.2.1 (E1.1.trans2 E2)
          | Constant ln v =>
              simp only [visitNodeF]
              have P := pushNode_spec "Constant" ln parent s hInv hp
              exact node_case_wrap _ parent (pushNode_extends _ _ parent s hInv hp)
                P.2.2 P.2.1 (CfgExtends.refl2 _ P.1)
          | Load =>
              simp only [visitNodeF]
              have P := pushNode_spec "Load" 0 parent s hInv hp
              exact node_case_wrap _ parent (pushNode_extends _ _ parent s hInv hp)
                P.2.2 P.2.1 (CfgExtends.refl2 _ P.1)
          | Store =>
              simp only [visitNodeF]
              have P := pushNode_spec "Store" 0 parent s hInv hp
              exact node_case_wrap _ parent (pushNode_extends _ _ parent s hInv hp)
                P.2.2 P.2.1 (CfgExtends.refl2 _ P.1)
          | OpNode o =>
              simp only [visitNodeF]
              have P := pushNode_spec o 0 parent s hInv hp
              exact node_case_wrap _ parent (pushNode_extends _ _ parent s hInv hp)
                P.2.2 P.2.1 (CfgExtends.refl2 _ P.1)
        · intro l p s hle hInv hplt
          cases l with
          | nil => exact CfgExtends.refl2 s hInv
          | cons a as =>
              have ha : 3 * a.size ≤ fuel := by
                simp only [sizeList] at hle
                omega
              have has : 3 * sizeList as + 1 ≤ fuel := by
                simp only [sizeList] at hle
                have := Ast.size_pos a
                omega
              have E1 := ihN a (some p) s ha hInv (fun q hq => by cases hq; exact hplt)
              have hplt2 : p < (visitNodeF fuel a (some p) s).counter :=
                lt_of_lt_of_le hplt E1.1.2.1
              have E2 := ihL as p _ has E1.1.1 hplt2
              simpa only [visitListF] using E1.1.trans2 E2
        · intro hs p s hle hInv hplt
          cases hs with
          | nil => exact CfgExtends.refl2 s hInv
          | cons h rest =>
              have hrest : 3 * sizeList rest + 2 ≤ fuel := by
                simp only [sizeList] at hle
                have := Ast.size_pos h
                omega
              cases h
              case ExceptHandler lh b =>
                have hb : 3 * sizeList b + 1 ≤ fuel := by
                  simp only [sizeList, Ast.size] at hle
                  omega
                have E1 := ihL b p s hb hInv hplt
                have E2 := ihH rest p _ hrest E1.1 (lt_of_lt_of_le hplt E1.2.1)
                simpa only [visitHandlersF] using E1.trans2 E2
              all_goals
                (exact (by simpa only [visitHandlersF] using ihH rest p s hrest hInv hplt))

theorem visitTop_extends (l : List Ast) (s : CfgState) (hInv : CfgInv s) :
    CfgExtends s (visitTop l s) := by
  induction l generalizing s with
  | nil => exact CfgExtends.refl2 s hInv
  | cons a as ih =>
      have E1 := (visitNodeF_spec (3 * a.size)).1 a none s (le_refl _) hInv
        (fun p hp => by cases hp)
      have := ih (visitNodeF (3 * a.size) a none s) E1.1.1
      simpa only [visitTop, visitNode] using E1.1.trans2 this

/-- If some top-level statement is not a loop, the first such statement's
node receives no edge at all: old edges point below the old counter, the
node has no parent, it gets no back-edge, and everything later points
strictly above it. -/
theorem visitTop_root : ∀ (l : List Ast) (s : CfgState), CfgInv s →
    (∃ c ∈ l, isLoopStmt c = false) →
    ∃ i, i ∈ (visitTop l s).ids ∧ ∀ e ∈ (visitTop l s).edges, e.2 ≠ i := by
  intro l
  induction l with
  | nil =>
      intro s _ hex
      rcases hex with ⟨c, hc, _⟩
      cases hc
  | cons a as ih =>
      intro s hInv hex
      have E1 := (visitNodeF_spec (3 * a.size)).1 a none s (le_refl _) hInv
        (fun p hp => by cases hp)
      by_cases hal : isLoopStmt a = false
      · have hTop := visitTop_extends as _ E1.1.1
        refine ⟨s.counter, ?_, ?_⟩
        · simp only [visitTop, visitNode]
          rw [hTop.1.1]
          refine List.mem_range.mpr ?_
          have h1 : s.counter < (visitNodeF (3 * a.size) a none s).counter := E1.2.1
          have h2 := hTop.2.1
          omega
        · intro e he
          simp only [visitTop, visitNode] at he
          rcases hTop.2.2 e he with h | h
          · rcases E1.2.2 e h with h2 | h2 | h2 | h2
            · have := hInv.2 e h2
              omega
            · rcases h2 with ⟨p, hp, _⟩
              cases hp
            · rw [hal] at h2
              cases h2.1
            · omega
          · have h1 : s.counter < (visitNodeF (3 * a.size) a none s).counter := E1.2.1
            omega
      · have hex2 : ∃ c ∈ as, isLoopStmt c = false := by
          rcases hex with ⟨c, hc, hcl⟩
          rcases List.mem_cons.mp hc with rfl | hc2
          · exact absurd hcl hal
          · exact ⟨c, hc2, hcl⟩
        have := ih (visitNodeF (3 * a.size) a none s) E1.1.1 hex2
        simpa only [visitTop, visitNode] using this

/-- **C1 (amended)**: for every tree the CFG builder produces unique
FlowNode ids (`0..counter-1` in creation order) and edges whose endpoints
are existing ids; the number of in-degree-0 nodes is at least 1 whenever at
least one top-level statement is not a `while`/`for` loop.  (Without that
proviso the claim fails: `while True: pass` has zero in-degree-0 nodes,
`C1_counterexample`.) -/
theorem C1_cfg_wellformed (t : Ast) :
    ((buildControlFlowGraph t).ids).Nodup
    ∧ (∀ e ∈ (buildControlFlowGraph t).edges,
        e.1 ∈ (buildControlFlowGraph t).ids ∧ e.2 ∈ (buildControlFlowGraph t).ids)
    ∧ ((∃ c ∈ t.children, isLoopStmt c = false) →
        1 ≤ (buildControlFlowGraph t).rootIds.length) := by
  have hInv0 : CfgInv CfgState.initial := ⟨rfl, by intro e he; cases he⟩
  have hExt := visitTop_extends t.children CfgState.initial hInv0
  have hInv := hExt.1
  refine ⟨?_, ?_, ?_⟩
  · unfold buildControlFlowGraph
    rw [hInv.1]
    exact List.nodup_range _
  · intro e he
    unfold buildControlFlowGraph at he ⊢
    have := hInv.2 e he
    rw [hInv.1]
    exact ⟨List.mem_range.mpr this.1, List.mem_range.mpr this.2⟩
  · intro hex
    rcases visitTop_root t.children CfgState.initial hInv0 hex with ⟨i, hi, hni⟩
    have hmem : i ∈ (buildControlFlowGraph t).rootIds := by
      unfold buildControlFlowGraph CfgState.rootIds
      refine List.mem_filter.mpr ⟨hi, ?_⟩
      rw [List.all_eq_true]
      intro e he
      simpa using hni e he
    have := List.length_pos.mpr (List.ne_nil_of_mem hmem)
    omega

/-- **C1 witness**: the amended theorem applied to the one-statement module
`pass`, whose single node is an in-degree-0 root. -/
theorem C1_cfg_wellformed_witness :
    1 ≤ (buildControlFlowGraph (.Module [.Pass 1])).rootIds.length :=
  (C1_cfg_wellformed (.Module [.Pass 1])).2.2 ⟨.Pass 1, List.mem_cons_self _ _, rfl⟩

end CodePulse
